import Mathlib

/-!
# recsum: a concurrent directory-tree hasher

A shallow embedding of `recurser.go` (package `recsum`) and theorems about it.

## What is embedded

* From `recurser.go`: `BuildFileHash`, `HashResult`, `recursiveHashBuilder`, `Path`,
  `SetFilter`, `DefaultFilter`, `New`, `walkfunc`, `buildhash` and `Walk`.
* From the Go standard library, as far as the package uses it: the type bits of
  `os.FileMode`, `filepath.Walk` with its helper `walk`, `io.Copy`, the verb `%x` of
  `fmt`, `hex.DecodeString`, and SHA-256.

## Conventions

* A Go `error` is identified with its message; `none` is the `nil` error.
* An `os.FileInfo` interface value is `Option FileInfo`; `none` is the `nil`
  interface.  Calling a method on it is a run-time panic, which a function
  that may panic reports by returning `none`.
* `os.FileMode` is a `uint32`; it is embedded as a natural number and only
  bitwise operations are applied to it, so no overflow can occur.
* A channel is its capacity, its buffer and its closed flag.
* The file system does not change during a run: `Lstat` and `Open` are functions
  of the path.  The filter is a function of its arguments.
* `filepath.Walk` runs in the goroutine that called `Walk` and talks to the
  rest of the program only through the sends `walkfunc` makes on `buildch`.
  Its run is therefore computed on its own (`traversal`): the sequence of paths
  it sends and the way it ends.  In the interleaving model of `Walk` the
  calling goroutine makes these sends one at a time, each blocking while the
  buffer of `buildch` is full.
* The reader of `OutputCh` is the caller's loop `for result := range outch`; it
  is always willing to receive.
* A panic in the goroutine that called `Walk` does not skip the deferred calls
  of `Walk`: the job queue is closed and the workers are waited for, and then
  the panic leaves `Walk` and ends the program.
-/

namespace Recsum

/-- A Go `error`, identified with its message. -/
abbrev GoError := String

/-- One byte. -/
abbrev Byte := Fin 256

/-- The low eight bits of a number. -/
def byteOf (x : Nat) : Byte := ⟨x % 256, Nat.mod_lt _ (by decide)⟩

/-! ## `os.FileMode` and `os.FileInfo` (Go standard library) -/

def ModeDir : Nat := 2 ^ 31
def ModeSymlink : Nat := 2 ^ 27
def ModeDevice : Nat := 2 ^ 26
def ModeNamedPipe : Nat := 2 ^ 25
def ModeSocket : Nat := 2 ^ 24
def ModeCharDevice : Nat := 2 ^ 21
def ModeIrregular : Nat := 2 ^ 19

/-- Mask of the type bits of a mode (`os.ModeType`). -/
def ModeType : Nat :=
  ModeDir ||| ModeSymlink ||| ModeNamedPipe ||| ModeSocket ||| ModeDevice |||
    ModeCharDevice ||| ModeIrregular

/-- The part of `os.FileInfo` the package looks at: the mode bits. -/
structure FileInfo where
  Mode : Nat
  deriving DecidableEq, Repr

/-- `FileMode.IsRegular`: `m&ModeType == 0`. -/
def IsRegular (m : Nat) : Bool := m &&& ModeType == 0

/-- `FileMode.IsDir`: `m&ModeDir != 0`. -/
def IsDir (m : Nat) : Bool := m &&& ModeDir != 0

/-! ## Channels -/

/-- A Go channel: capacity, queued values (oldest first), closed flag. -/
structure Chan (α : Type) where
  cap : Nat
  buf : List α
  closed : Bool
  deriving DecidableEq, Repr

/-- `make(chan T, cap)`. -/
def Chan.make {α : Type} (cap : Nat) : Chan α := { cap := cap, buf := [], closed := false }

/-! ## `crypto.Hash` and files -/

/-- A digest algorithm capability (`crypto.Hash` that is linked into the
binary): `Size()` and the digest of a byte stream.  A `hash.Hash` obtained from
`New()` accumulates what is written to it and `Sum(nil)` returns the digest of
all of it, which has `Size()` bytes; every algorithm of package `crypto` has a
positive size. -/
structure CryptoHash where
  Size : Nat
  Sum : List Byte → List Byte
  size_pos : 0 < Size
  sum_length : ∀ data, (Sum data).length = Size

/-- What reading an opened file yields: the chunks successive `Read` calls
return, then either end of file (`none`) or a read error. -/
structure OpenFile where
  chunks : List (List Byte)
  readErr : Option GoError
  deriving DecidableEq, Repr

/-- The bytes delivered by the reads of an open file. -/
def OpenFile.contents (f : OpenFile) : List Byte := f.chunks.flatten

/-- Hex digit of a value below 16, lowercase (`fmt` verb `%x`). -/
def hexDigit (d : Nat) : Char :=
  if d < 10 then Char.ofNat (48 + d) else Char.ofNat (87 + d)

/-- Two hex digits of one byte, high nibble first. -/
def hexByte (b : Byte) : List Char := [hexDigit (b.val / 16), hexDigit (b.val % 16)]

/-- `fmt.Sprintf("%x", bytes)` for a byte slice. -/
def hexEncode (bs : List Byte) : String := String.mk (bs.flatMap hexByte)

/-- The value of a hex digit (`fromHexChar` of package `encoding/hex`). -/
def hexValue (c : Char) : Option Nat :=
  if '0' ≤ c ∧ c ≤ '9' then some (c.toNat - '0'.toNat)
  else if 'a' ≤ c ∧ c ≤ 'f' then some (c.toNat - 'a'.toNat + 10)
  else if 'A' ≤ c ∧ c ≤ 'F' then some (c.toNat - 'A'.toNat + 10)
  else none

/-- Hex decoding (`hex.DecodeString`); `none` for an odd length or a character
that is no hex digit. -/
def hexDecode : List Char → Option (List Byte)
  | [] => some []
  | [_] => none
  | hi :: lo :: rest =>
    match hexValue hi, hexValue lo, hexDecode rest with
    | some h, some l, some bs => some (byteOf (h * 16 + l) :: bs)
    | _, _, _ => none

/-- The bit positions of `os.ModeType`. -/
def typeBits : List Nat := [31, 27, 26, 25, 24, 21, 19]

/-- `io.Copy(hasher, f)`: every chunk read is written to the hasher (whose
state is the bytes written so far); the result is the new hasher state and the
read error, if any. -/
def ioCopy (hasher : List Byte) (f : OpenFile) : List Byte × Option GoError :=
  (f.chunks.foldl (fun acc c => acc ++ c) hasher, f.readErr)

/-- `BuildFileHash(hash, filename)`; `osOpen` is `os.Open` on the current
file-system state. -/
def BuildFileHash (osOpen : String → Except GoError OpenFile) (hash : CryptoHash)
    (filename : String) : String × Option GoError :=
  let hasher : List Byte := []
  match osOpen filename with
  | .error err => ("", some err)
  | .ok f =>
    match ioCopy hasher f with
    | (_, some err) => ("", some err)
    | (hasher, none) => (hexEncode (hash.Sum hasher), none)

/-! ## Results and the builder -/

/-- `HashResult`; times are clock readings. -/
structure HashResult where
  Path : String
  Hash : String
  Start : Nat
  End : Nat
  Error : Option GoError
  deriving DecidableEq, Repr

/-- The type of the filter predicate; `none` is a panic. -/
abbrev Filter := String → Option FileInfo → Option GoError → Option Bool

/-- `recursiveHashBuilder` (the wait group lives in the run state). -/
structure recursiveHashBuilder where
  path : String
  buildch : Chan String
  OutputCh : Chan HashResult
  filter : Filter
  workers : Int
  hash : CryptoHash

/-- `Path()`. -/
def recursiveHashBuilder.Path (b : recursiveHashBuilder) : String := b.path

/-- `SetFilter(f)`. -/
def recursiveHashBuilder.SetFilter (b : recursiveHashBuilder) (f : Filter) :
    recursiveHashBuilder :=
  { b with filter := f }

/-- `DefaultFilter(path, info, err)`:
`info.Mode().IsRegular() || info.Mode()&os.ModeSymlink != 0`.
With a nil `info` the method call panics. -/
def DefaultFilter (_path : String) (info : Option FileInfo) (_err : Option GoError) :
    Option Bool :=
  match info with
  | none => none
  | some i => some (IsRegular i.Mode || (i.Mode &&& ModeSymlink != 0))

/-- The pair `New` returns, with the state of the caller's output channel when
it returns. -/
structure NewResult where
  builder : Option recursiveHashBuilder
  err : Option GoError
  outch : Chan HashResult

/-- `New(path, hash, outch, workers)`. -/
def New (path : String) (hash : CryptoHash) (outch : Chan HashResult) (workers : Int) :
    NewResult :=
  if workers < 1 then
    { builder := none, err := some "Must have at least 1 worker", outch := outch }
  else
    { builder := some
        { path := path
          buildch := Chan.make 20
          filter := DefaultFilter
          OutputCh := outch
          workers := workers
          hash := hash }
      err := none
      outch := outch }

/-! ## `filepath.Walk` (Go standard library) -/

mutual
/-- What `Lstat` finds at a path: an error, or the entry's metadata together
with what `readDirNames` yields for it (looked at only for a directory). -/
inductive Node where
  | noent (err : GoError) : Node
  | entry (info : FileInfo) (readErr : Option GoError) (names : Kids) : Node
/-- The entries of a directory, each under the joined path
`Join(path, name)` and in the order `readDirNames` lists them. -/
inductive Kids where
  | nil : Kids
  | cons (filename : String) (node : Node) (rest : Kids) : Kids
end

/-- The state of the file system during one run. -/
structure FileSystem where
  Lstat : String → Node
  Open : String → Except GoError OpenFile

/-- The errors a `WalkFunc` may return: the sentinel `SkipDir` or another. -/
inductive WalkError where
  | SkipDir : WalkError
  | other (e : GoError) : WalkError
  deriving DecidableEq, Repr

/-- How a computation on a state ends: it returns a value, or it panics. -/
inductive Outcome (σ α : Type) where
  | done (a : α) (s : σ) : Outcome σ α
  | panic (s : σ) : Outcome σ α

/-- The state in which a computation ended. -/
def Outcome.state {σ α : Type} : Outcome σ α → σ
  | .done _ s => s
  | .panic s => s

/-- `filepath.WalkFunc`, acting on a state. -/
abbrev WalkFunc (σ : Type) :=
  String → Option FileInfo → Option GoError → σ → Outcome σ (Option WalkError)

mutual
/-- The entry at `path` once `Lstat` has looked at it: when `Lstat` failed, the
call `walkFn(path, nil, err)` that both `Walk` and the loop of `walk` make;
otherwise `walk(path, info, walkFn)` of package `filepath`. -/
def walk {σ : Type} (walkFn : WalkFunc σ) (path : String) (node : Node) (s : σ) :
    Outcome σ (Option WalkError) :=
  match node with
  | .noent err => walkFn path none (some err) s
  | .entry info readErr names =>
    if !IsDir info.Mode then walkFn path (some info) none s
    else
      match walkFn path (some info) readErr s with
      | .panic s1 => .panic s1
      | .done err1 s1 =>
        if readErr ≠ none ∨ err1 ≠ none then .done err1 s1
        else walkNames walkFn names s1
/-- The loop `for _, name := range names` of `walk`. -/
def walkNames {σ : Type} (walkFn : WalkFunc σ) (names : Kids) (s : σ) :
    Outcome σ (Option WalkError) :=
  match names with
  | .nil => .done none s
  | .cons filename node rest =>
    match walk walkFn filename node s with
    | .panic s1 => .panic s1
    | .done e s1 =>
      let stop : Bool :=
        match node with
        | .noent _ => e ≠ none ∧ e ≠ some .SkipDir
        | .entry info _ _ => e ≠ none ∧ (!IsDir info.Mode ∨ e ≠ some .SkipDir)
      if stop then .done e s1 else walkNames walkFn rest s1
end

/-- `filepath.Walk(root, fn)`. -/
def filepathWalk {σ : Type} (fs : FileSystem) (root : String) (fn : WalkFunc σ) (s : σ) :
    Outcome σ (Option WalkError) :=
  match walk fn root (fs.Lstat root) s with
  | .panic s1 => .panic s1
  | .done err s1 => if err = some .SkipDir then .done none s1 else .done err s1

/-- One call of the walk function: the arguments it is given. -/
structure Visit where
  path : String
  info : Option FileInfo
  err : Option GoError
  deriving DecidableEq, Repr

/-- A walk function that records its arguments and returns nil. -/
def recordVisit : WalkFunc (List Visit) :=
  fun path info err log => .done none (log ++ [⟨path, info, err⟩])

/-- The entries a traversal of `root` visits when nothing is skipped. -/
def walkVisits (fs : FileSystem) (root : String) : List Visit :=
  (filepathWalk fs root recordVisit []).state

mutual
/-- The calls `walk` makes at an entry when every call returns nil. -/
def Node.visits (path : String) : Node → List Visit
  | .noent err => [⟨path, none, some err⟩]
  | .entry info readErr names =>
    if !IsDir info.Mode then [⟨path, some info, none⟩]
    else if readErr ≠ none then [⟨path, some info, readErr⟩]
    else ⟨path, some info, readErr⟩ :: names.visits
/-- The calls the loop over a directory's names makes when every call
returns nil. -/
def Kids.visits : Kids → List Visit
  | .nil => []
  | .cons filename node rest => node.visits filename ++ rest.visits
end

/-- The paths of the visits a filter accepts. -/
def acceptedPaths (filter : Filter) (vs : List Visit) : List String :=
  (vs.filter (fun v => filter v.path v.info v.err == some true)).map Visit.path

/-- `walkfunc(path, info, err)`; the state is the sequence of paths sent on
`buildch` so far. -/
def walkfunc (b : recursiveHashBuilder) : WalkFunc (List String) :=
  fun path info err sent =>
    match b.filter path info err with
    | none => .panic sent
    | some true => .done none (sent ++ [path])
    | some false => .done none sent

/-- The call `filepath.Walk(b.path, b.walkfunc)` of `Walk`: the paths it sends
on `buildch`, in order, and how it ends. -/
def traversal (b : recursiveHashBuilder) (fs : FileSystem) :
    Outcome (List String) (Option WalkError) :=
  filepathWalk fs b.path (walkfunc b) []

/-! ## `Walk`: the goroutines and their interleavings

`Walk` runs one goroutine per worker (`buildhash`) next to the calling
goroutine, and the caller's reader drains `OutputCh`.  A run is a sequence of
atomic steps, each taken by one of them; the scheduler picks who moves. -/

/-- Where the goroutine that called `Walk` stands. -/
inductive Pc where
  /-- In the loop `for j := 0; j < b.workers; j++`. -/
  | spawning : Pc
  /-- Inside `filepath.Walk(b.path, b.walkfunc)`. -/
  | walking : Pc
  /-- `filepath.Walk` has ended, by returning or by a panic; the deferred
  `close(b.buildch)` is next. -/
  | closing : Pc
  /-- In the deferred `b.buildwg.Wait()`. -/
  | waiting : Pc
  /-- `Walk` has returned. -/
  | returned : Pc
  /-- A panic has ended the program: it left `Walk` after the deferred calls, or
  it left a worker. -/
  | crashed : Pc
  deriving DecidableEq, Repr

/-- Where one `buildhash` goroutine stands. -/
inductive Worker where
  /-- At `for path := range jobs`, about to receive. -/
  | ranging : Worker
  /-- Holding a received path, about to hash it. -/
  | hashing (path : String) : Worker
  /-- At `b.OutputCh <- &HashResult{...}`. -/
  | sending (r : HashResult) : Worker
  /-- The loop ended and the deferred `b.buildwg.Done()` ran. -/
  | exited : Worker
  deriving DecidableEq, Repr

/-- The state of one run of `Walk`. -/
structure State where
  pc : Pc
  /-- Paths `filepath.Walk` has yet to send on `buildch`. -/
  pending : List String
  /-- The value of the expression `filepath.Walk(...)`, once computed. -/
  retval : Option WalkError
  /-- The goroutine that called `Walk` is panicking: its deferred calls run, then
  the panic leaves `Walk`. -/
  panicking : Bool
  buildch : Chan String
  /-- The counter of `buildwg`. -/
  buildwg : Int
  workers : List Worker
  OutputCh : Chan HashResult
  /-- What the reader of `OutputCh` has received, oldest first. -/
  received : List HashResult
  deriving DecidableEq, Repr

/-- Who takes the next step. -/
inductive Action where
  /-- The goroutine that called `Walk`. -/
  | main : Action
  /-- Worker `i`; `start` and `stop` are what `time.Now().UTC()` reads if this
  step hashes a file. -/
  | worker (i : Nat) (start stop : Nat) : Action
  /-- The reader of `OutputCh` receives one value. -/
  | reader : Action
  deriving DecidableEq, Repr

/-- The state in which `Walk` is entered. -/
def Walk.init (b : recursiveHashBuilder) : State :=
  { pc := .spawning
    pending := []
    retval := none
    panicking := false
    buildch := b.buildch
    buildwg := 0
    workers := []
    OutputCh := b.OutputCh
    received := [] }

/-- One step of the body of `Walk`, with its deferred calls.  A send on
`buildch` goes into the buffer and blocks while the buffer is full.  A panic in
this goroutine (in the filter, on a send on a closed channel, on closing a
closed channel) does not skip the deferred calls: `close(b.buildch)` and
`b.buildwg.Wait()` still run, and only then does the panic leave `Walk`. -/
def Walk.stepMain (b : recursiveHashBuilder) (fs : FileSystem) (s : State) : Option State :=
  match s.pc with
  | .spawning =>
    if (s.workers.length : Int) < b.workers then
      some { s with buildwg := s.buildwg + 1, workers := s.workers ++ [.ranging] }
    else
      some { s with pc := .walking, pending := (traversal b fs).state }
  | .walking =>
    match s.pending with
    | path :: rest =>
      if s.buildch.closed then some { s with pc := .closing, panicking := true }
      else if s.buildch.buf.length < s.buildch.cap then
        some { s with pending := rest
                      buildch := { s.buildch with buf := s.buildch.buf ++ [path] } }
      else none
    | [] =>
      match traversal b fs with
      | .panic _ => some { s with pc := .closing, panicking := true }
      | .done err _ => some { s with pc := .closing, retval := err }
  | .closing =>
    if s.buildch.closed then some { s with pc := .waiting, panicking := true }
    else some { s with pc := .waiting, buildch := { s.buildch with closed := true } }
  | .waiting =>
    if s.buildwg = 0 then
      if s.panicking then some { s with pc := .crashed } else some { s with pc := .returned }
    else none
  | .returned => none
  | .crashed => none

/-- One step of `buildhash` run by worker `i`.  A send on `OutputCh` goes into
the buffer while there is room; otherwise it is handed to the reader when the
reader is waiting, that is when the buffer is empty, and blocks when it is not.
A send on a closed `OutputCh` panics: the deferred `b.buildwg.Done()` runs and
the program ends. -/
def buildhash (b : recursiveHashBuilder) (fs : FileSystem) (i start stop : Nat) (s : State) :
    Option State :=
  match s.workers.get? i with
  | none => none
  | some .ranging =>
    match s.buildch.buf with
    | path :: rest =>
      some { s with buildch := { s.buildch with buf := rest }
                    workers := s.workers.set i (.hashing path) }
    | [] =>
      if s.buildch.closed then
        some { s with buildwg := s.buildwg - 1, workers := s.workers.set i .exited }
      else none
  | some (.hashing path) =>
    let r := BuildFileHash fs.Open b.hash path
    some { s with workers := s.workers.set i (.sending ⟨path, r.1, start, stop, r.2⟩) }
  | some (.sending r) =>
    if s.OutputCh.closed then
      some { s with pc := .crashed, buildwg := s.buildwg - 1
                    workers := s.workers.set i .exited }
    else if s.OutputCh.buf.length < s.OutputCh.cap then
      some { s with OutputCh := { s.OutputCh with buf := s.OutputCh.buf ++ [r] }
                    workers := s.workers.set i .ranging }
    else if s.OutputCh.buf = [] then
      some { s with received := s.received ++ [r], workers := s.workers.set i .ranging }
    else none
  | some .exited => none

/-- The caller's reader `for result := range outch` receives one value. -/
def readOutput (s : State) : Option State :=
  match s.OutputCh.buf with
  | r :: rest =>
    some { s with OutputCh := { s.OutputCh with buf := rest }, received := s.received ++ [r] }
  | [] => none

/-- One step of the program; `none` when the chosen goroutine is blocked or
has finished, or a panic has ended the program. -/
def Walk.step (b : recursiveHashBuilder) (fs : FileSystem) (s : State) (a : Action) :
    Option State :=
  if s.pc = .crashed then none
  else
    match a with
    | .main => Walk.stepMain b fs s
    | .worker i start stop => buildhash b fs i start stop s
    | .reader => readOutput s

/-- The state after a schedule, if every step of it can be taken. -/
def Walk.run (b : recursiveHashBuilder) (fs : FileSystem) : State → List Action → Option State
  | s, [] => some s
  | s, a :: rest =>
    match Walk.step b fs s a with
    | none => none
    | some s1 => Walk.run b fs s1 rest

/-- `Walk` has returned and the output channel has been drained. -/
def State.finished (s : State) : Prop := s.pc = .returned ∧ s.OutputCh.buf = []

/-- The error `Walk` returned, when it has returned. -/
def State.Walk_result (s : State) : Option (Option WalkError) :=
  if s.pc = .returned then some s.retval else none

/-! ## What a run conserves -/

/-- What a result says about its file: path, digest, error. -/
abbrev Report := String × String × Option GoError

/-- The report a result carries. -/
def HashResult.report (r : HashResult) : Report := (r.Path, r.Hash, r.Error)

/-- Path, digest and whether there is an error. -/
def HashResult.triple (r : HashResult) : String × String × Bool :=
  (r.Path, r.Hash, r.Error.isSome)

/-- The report hashing a path gives. -/
def jobReport (b : recursiveHashBuilder) (fs : FileSystem) (path : String) : Report :=
  (path, BuildFileHash fs.Open b.hash path)

/-- The report a worker is holding, if any. -/
def Worker.load (b : recursiveHashBuilder) (fs : FileSystem) : Worker → Multiset Report
  | .hashing path => {jobReport b fs path}
  | .sending r => {r.report}
  | .ranging => 0
  | .exited => 0

/-- One for a worker that has not exited. -/
def Worker.live : Worker → Nat
  | .exited => 0
  | _ => 1

/-- The paths the traversal has yet to send. -/
def State.todo (b : recursiveHashBuilder) (fs : FileSystem) (s : State) : List String :=
  if s.pc = .spawning then (traversal b fs).state else s.pending

/-- A builder as `New` makes it, on an output channel that is open and empty. -/
structure recursiveHashBuilder.Ready (b : recursiveHashBuilder) : Prop where
  buildch : b.buildch = Chan.make 20
  out_empty : b.OutputCh.buf = []
  out_open : b.OutputCh.closed = false
  workers : 1 ≤ b.workers

/-- The invariant of a run of `Walk`. -/
structure Inv (b : recursiveHashBuilder) (fs : FileSystem) (s : State) : Prop where
  out_open : s.OutputCh.closed = false
  workers_le : (s.workers.length : Int) ≤ b.workers
  workers_eq : s.pc ≠ .spawning → (s.workers.length : Int) = b.workers
  wg : s.buildwg = ((s.workers.map Worker.live).sum : Nat)
  closed_iff : s.buildch.closed = true ↔
    (s.pc = .waiting ∨ s.pc = .returned ∨ s.pc = .crashed)
  pending_nil : s.pc ≠ .walking → s.pending = []
  exited : Worker.exited ∈ s.workers → s.buildch.closed = true ∧ s.buildch.buf = []
  idle : s.pc = .spawning →
    s.buildch.buf = [] ∧ s.OutputCh.buf = [] ∧ s.received = [] ∧
      ∀ w ∈ s.workers, w = Worker.ranging
  returned : s.pc = .returned ∨ s.pc = .crashed → s.buildwg = 0
  retval : s.retval = none
  cap : s.buildch.cap = 20
  calm : s.pc = .spawning ∨ s.pc = .walking ∨ s.pc = .returned → s.panicking = false
  crashed : s.pc = .crashed → s.panicking = true
  walked : s.pc = .closing ∨ s.pc = .waiting ∨ s.pc = .returned ∨ s.pc = .crashed →
    (s.panicking = false ∧ ∃ tr, traversal b fs = .done none tr) ∨
      (s.panicking = true ∧ ∃ tr, traversal b fs = .panic tr)
  conserve :
    (↑((s.todo b fs).map (jobReport b fs)) : Multiset Report)
      + ↑(s.buildch.buf.map (jobReport b fs))
      + (s.workers.map (Worker.load b fs)).sum
      + ↑(s.OutputCh.buf.map HashResult.report)
      + ↑(s.received.map HashResult.report)
    = ↑((traversal b fs).state.map (jobReport b fs))

/-! ## A measure that every step decreases -/

/-- How far the goroutine that called `Walk` is from the end. -/
def Pc.rank : Pc → Nat
  | .spawning => 5
  | .walking => 4
  | .closing => 3
  | .waiting => 2
  | .returned => 1
  | .crashed => 0

/-- How far a worker is from the end of its current iteration. -/
def Worker.rank : Worker → Nat
  | .hashing _ => 5
  | .sending _ => 4
  | .ranging => 1
  | .exited => 0

/-- The number of steps left is at most this. -/
def State.measure (b : recursiveHashBuilder) (fs : FileSystem) (s : State) : Nat :=
  s.pc.rank + 2 * (b.workers.toNat - s.workers.length) + 6 * (s.todo b fs).length
    + 5 * s.buildch.buf.length + (s.workers.map Worker.rank).sum + 2 * s.OutputCh.buf.length

/-- The number of times a schedule executes `close(b.buildch)`: the steps the
goroutine that called `Walk` takes from `closing`. -/
def Walk.closeCalls (b : recursiveHashBuilder) (fs : FileSystem) :
    State → List Action → Nat
  | _, [] => 0
  | s, a :: rest =>
    match Walk.step b fs s a with
    | none => 0
    | some s1 =>
      (if a = .main ∧ s.pc = .closing then 1 else 0) + Walk.closeCalls b fs s1 rest

/-! ## SHA-256 (FIPS 180-4), the algorithm behind `crypto.SHA256`

Words are natural numbers below `2 ^ 32`; every addition is reduced. -/

namespace Sha256

def add32 (a b : Nat) : Nat := (a + b) % 2 ^ 32

def rotr (x n : Nat) : Nat := ((x >>> n) ||| (x <<< (32 - n))) % 2 ^ 32

/-- The round constants. -/
def K : List Nat := [
  0x428a2f98, 0x71374491, 0xb5c0fbcf, 0xe9b5dba5, 0x3956c25b, 0x59f111f1, 0x923f82a4, 0xab1c5ed5,
  0xd807aa98, 0x12835b01, 0x243185be, 0x550c7dc3, 0x72be5d74, 0x80deb1fe, 0x9bdc06a7, 0xc19bf174,
  0xe49b69c1, 0xefbe4786, 0x0fc19dc6, 0x240ca1cc, 0x2de92c6f, 0x4a7484aa, 0x5cb0a9dc, 0x76f988da,
  0x983e5152, 0xa831c66d, 0xb00327c8, 0xbf597fc7, 0xc6e00bf3, 0xd5a79147, 0x06ca6351, 0x14292967,
  0x27b70a85, 0x2e1b2138, 0x4d2c6dfc, 0x53380d13, 0x650a7354, 0x766a0abb, 0x81c2c92e, 0x92722c85,
  0xa2bfe8a1, 0xa81a664b, 0xc24b8b70, 0xc76c51a3, 0xd192e819, 0xd6990624, 0xf40e3585, 0x106aa070,
  0x19a4c116, 0x1e376c08, 0x2748774c, 0x34b0bcb5, 0x391c0cb3, 0x4ed8aa4a, 0x5b9cca4f, 0x682e6ff3,
  0x748f82ee, 0x78a5636f, 0x84c87814, 0x8cc70208, 0x90befffa, 0xa4506ceb, 0xbef9a3f7, 0xc67178f2]

/-- The eight working registers. -/
structure Regs where
  a : Nat
  b : Nat
  c : Nat
  d : Nat
  e : Nat
  f : Nat
  g : Nat
  h : Nat

/-- The initial hash value. -/
def iv : Regs :=
  ⟨0x6a09e667, 0xbb67ae85, 0x3c6ef372, 0xa54ff53a, 0x510e527f, 0x9b05688c, 0x1f83d9ab,
    0x5be0cd19⟩

/-- One round, for a constant and a schedule word. -/
def round (r : Regs) (kw : Nat × Nat) : Regs :=
  let s1 := rotr r.e 6 ^^^ rotr r.e 11 ^^^ rotr r.e 25
  let ch := (r.e &&& r.f) ^^^ ((r.e ^^^ (2 ^ 32 - 1)) &&& r.g)
  let t1 := add32 (add32 (add32 (add32 r.h s1) ch) kw.1) kw.2
  let s0 := rotr r.a 2 ^^^ rotr r.a 13 ^^^ rotr r.a 22
  let maj := (r.a &&& r.b) ^^^ (r.a &&& r.c) ^^^ (r.b &&& r.c)
  let t2 := add32 s0 maj
  ⟨add32 t1 t2, r.a, r.b, r.c, add32 r.d t1, r.e, r.f, r.g⟩

/-- Extends the message schedule by `n` words; the list holds the newest word
first. -/
def schedule : Nat → List Nat → List Nat
  | 0, w => w
  | n + 1, w =>
    let w2 := w.getD 1 0
    let w7 := w.getD 6 0
    let w15 := w.getD 14 0
    let w16 := w.getD 15 0
    let s0 := rotr w15 7 ^^^ rotr w15 18 ^^^ (w15 >>> 3)
    let s1 := rotr w2 17 ^^^ rotr w2 19 ^^^ (w2 >>> 10)
    schedule n (add32 (add32 (add32 w16 s0) w7) s1 :: w)

/-- The first `n` big-endian words of a byte string. -/
def words : Nat → List Byte → List Nat
  | 0, _ => []
  | n + 1, bs =>
    ((bs.getD 0 0).val * 2 ^ 24 + (bs.getD 1 0).val * 2 ^ 16 + (bs.getD 2 0).val * 2 ^ 8
      + (bs.getD 3 0).val) :: words n (bs.drop 4)

/-- The compression function on one 64-byte block. -/
def compress (r : Regs) (block : List Byte) : Regs :=
  let w := (schedule 48 (words 16 block).reverse).reverse
  let r2 := (K.zip w).foldl round r
  ⟨add32 r.a r2.a, add32 r.b r2.b, add32 r.c r2.c, add32 r.d r2.d,
   add32 r.e r2.e, add32 r.f r2.f, add32 r.g r2.g, add32 r.h r2.h⟩

/-- The message followed by the bit `1`, zero bits and its length in bits as
a 64-bit big-endian number, to a multiple of 64 bytes. -/
def pad (msg : List Byte) : List Byte :=
  let l := msg.length
  let z := (64 - (l + 9) % 64) % 64
  msg ++ [byteOf 0x80] ++ List.replicate z (byteOf 0)
    ++ (List.range 8).map (fun i => byteOf ((8 * l) >>> (8 * (7 - i))))

/-- The first `n` 64-byte blocks of a byte string. -/
def blocks : Nat → List Byte → List (List Byte)
  | 0, _ => []
  | n + 1, bs => bs.take 64 :: blocks n (bs.drop 64)

/-- The four bytes of a word, big-endian. -/
def wordBytes (w : Nat) : List Byte :=
  [byteOf (w >>> 24), byteOf (w >>> 16), byteOf (w >>> 8), byteOf w]

/-- The SHA-256 digest of a message. -/
def sum (msg : List Byte) : List Byte :=
  let p := pad msg
  let r := (blocks (p.length / 64) p).foldl compress iv
  wordBytes r.a ++ wordBytes r.b ++ wordBytes r.c ++ wordBytes r.d ++
    wordBytes r.e ++ wordBytes r.f ++ wordBytes r.g ++ wordBytes r.h

end Sha256

/-- `crypto.SHA256`. -/
def SHA256 : CryptoHash where
  Size := 32
  Sum := Sha256.sum
  size_pos := by decide
  sum_length := by intro data; simp [Sha256.sum, Sha256.wordBytes]

/-! ## A small file system

The directory `root` holds `a.txt` with contents `hello`, `b.txt` with
contents `world`, `c.txt` that cannot be opened, and a subdirectory `d` with one
symbolic link and one named pipe. -/

/-- The bytes of an ASCII string. -/
def bytesOf (s : String) : List Byte := s.toList.map (fun c => byteOf c.toNat)

def demoTree : Node :=
  .entry ⟨ModeDir ||| 0o755⟩ none
    (.cons "root/a.txt" (.entry ⟨0o644⟩ none .nil)
    (.cons "root/b.txt" (.entry ⟨0o644⟩ none .nil)
    (.cons "root/c.txt" (.entry ⟨0o200⟩ none .nil)
    (.cons "root/d" (.entry ⟨ModeDir ||| 0o755⟩ none
        (.cons "root/d/link" (.entry ⟨ModeSymlink ||| 0o777⟩ none .nil)
        (.cons "root/d/pipe" (.entry ⟨ModeNamedPipe ||| 0o644⟩ none .nil) .nil)))
      .nil))))

def demoFS : FileSystem where
  Lstat := fun p =>
    if p = "root" then demoTree else .noent "lstat: no such file or directory"
  Open := fun p =>
    if p = "root/a.txt" then .ok ⟨[bytesOf "hello"], none⟩
    else if p = "root/b.txt" then .ok ⟨[bytesOf "wor", bytesOf "ld"], none⟩
    else if p = "root/d/link" then .ok ⟨[], none⟩
    else if p = "root/c.txt" then .error "open root/c.txt: permission denied"
    else .error "open: no such file or directory"

/-- The builder `New("root", crypto.SHA256, make(chan *HashResult, 1), 2)`
returns. -/
def demoBuilder : recursiveHashBuilder :=
  { path := "root"
    buildch := Chan.make 20
    filter := DefaultFilter
    OutputCh := Chan.make 1
    workers := 2
    hash := SHA256 }

/-- The same tree when no file can be opened. -/
def lockedFS : FileSystem where
  Lstat := demoFS.Lstat
  Open := fun _ => .error "open: permission denied"

/-- A schedule for two workers: `Walk` starts both, walks the tree and closes
the job queue before any worker moves; the workers then share the four paths. -/
def demoSched : List Action :=
  [.main, .main, .main, .main, .main, .main, .main, .main, .main,
    .worker 0 1 2, .worker 0 1 2, .worker 0 0 0, .worker 1 3 4, .worker 1 3 4, .reader,
    .worker 1 0 0, .reader, .worker 1 0 0, .worker 1 5 6, .worker 1 0 0, .worker 0 0 0,
    .worker 0 7 8, .reader, .worker 0 0 0, .worker 0 0 0, .worker 1 0 0, .main, .reader]

/-- Where `demoSched` leaves the run on `demoFS`. -/
def demoFinal : State :=
  { pc := .returned
    pending := []
    retval := none
    panicking := false
    buildch := { cap := 20, buf := [], closed := true }
    buildwg := 0
    workers := [.exited, .exited]
    OutputCh := { cap := 1, buf := [], closed := false }
    received :=
      [⟨"root/a.txt", "2cf24dba5fb0a30e26e83b2ac5b9e29e1b161e5c1fa7425e73043362938b9824", 1, 2,
          none⟩,
        ⟨"root/b.txt", "486ea46224d1bb4fb680f34f7c9ad96a8f24ec88be73ea8e5a6c65260e9cb8a7", 3, 4,
          none⟩,
        ⟨"root/c.txt", "", 5, 6, some "open root/c.txt: permission denied"⟩,
        ⟨"root/d/link", "e3b0c44298fc1c149afbf4c8996fb92427ae41e4649b934ca495991b7852b855", 7, 8,
          none⟩] }

/-- Where `demoSched` leaves the run on `lockedFS`. -/
def lockedFinal : State :=
  { demoFinal with
    received :=
      [⟨"root/a.txt", "", 1, 2, some "open: permission denied"⟩,
        ⟨"root/b.txt", "", 3, 4, some "open: permission denied"⟩,
        ⟨"root/c.txt", "", 5, 6, some "open: permission denied"⟩,
        ⟨"root/d/link", "", 7, 8, some "open: permission denied"⟩] }

/-- The builder `New("root", crypto.SHA256, make(chan *HashResult, 3), 1)`
returns. -/
def soloBuilder : recursiveHashBuilder :=
  { demoBuilder with OutputCh := Chan.make 3, workers := 1 }

/-- A schedule for one worker, which starts on the first path while the
traversal is still under way and sends three results before any is read. -/
def soloSched : List Action :=
  [.main, .main, .main, .worker 0 10 11, .main, .worker 0 10 11, .main, .main, .worker 0 0 0,
    .worker 0 0 0, .worker 0 12 13, .worker 0 0 0, .worker 0 0 0, .worker 0 14 15, .main,
    .worker 0 0 0, .main, .reader, .worker 0 0 0, .worker 0 16 17, .worker 0 0 0, .reader,
    .reader, .worker 0 0 0, .reader, .main]

/-- Where `soloSched` leaves the run on `demoFS`. -/
def soloFinal : State :=
  { pc := .returned
    pending := []
    retval := none
    panicking := false
    buildch := { cap := 20, buf := [], closed := true }
    buildwg := 0
    workers := [.exited]
    OutputCh := { cap := 3, buf := [], closed := false }
    received :=
      [⟨"root/a.txt", "2cf24dba5fb0a30e26e83b2ac5b9e29e1b161e5c1fa7425e73043362938b9824", 10,
          11, none⟩,
        ⟨"root/b.txt", "486ea46224d1bb4fb680f34f7c9ad96a8f24ec88be73ea8e5a6c65260e9cb8a7", 12,
          13, none⟩,
        ⟨"root/c.txt", "", 14, 15, some "open root/c.txt: permission denied"⟩,
        ⟨"root/d/link", "e3b0c44298fc1c149afbf4c8996fb92427ae41e4649b934ca495991b7852b855", 16,
          17, none⟩] }

/-- The same tree when reading `root/a.txt` fails after three bytes. -/
def tornFS : FileSystem where
  Lstat := demoFS.Lstat
  Open := fun p =>
    if p = "root/a.txt" then .ok ⟨[bytesOf "hel"], some "read root/a.txt: input/output error"⟩
    else demoFS.Open p

/-- Where `demoSched` leaves the run on `tornFS`. -/
def tornFinal : State :=
  { demoFinal with
    received :=
      [⟨"root/a.txt", "", 1, 2, some "read root/a.txt: input/output error"⟩,
        ⟨"root/b.txt", "486ea46224d1bb4fb680f34f7c9ad96a8f24ec88be73ea8e5a6c65260e9cb8a7", 3, 4,
          none⟩,
        ⟨"root/c.txt", "", 5, 6, some "open root/c.txt: permission denied"⟩,
        ⟨"root/d/link", "e3b0c44298fc1c149afbf4c8996fb92427ae41e4649b934ca495991b7852b855", 7, 8,
          none⟩] }

/-- A directory `dir` holding the file `dir/a.txt` with contents `hello` and a
name `dir/gone` on which `Lstat` fails. -/
def brokenFS : FileSystem where
  Lstat := fun p =>
    if p = "dir" then
      .entry ⟨ModeDir ||| 0o755⟩ none
        (.cons "dir/a.txt" (.entry ⟨0o644⟩ none .nil)
        (.cons "dir/gone" (.noent "lstat dir/gone: no such file or directory") .nil))
    else .noent "lstat: no such file or directory"
  Open := fun p =>
    if p = "dir/a.txt" then .ok ⟨[bytesOf "hello"], none⟩
    else .error "open: no such file or directory"

/-- The builder `New("dir", crypto.SHA256, make(chan *HashResult, 1), 1)`
returns. -/
def brokenBuilder : recursiveHashBuilder :=
  { demoBuilder with path := "dir", workers := 1 }

/-- A schedule on `brokenFS`: the traversal sends `dir/a.txt` and the default
filter panics on `dir/gone`; the deferred calls of `Walk` run, the worker
delivers its result and exits, and the panic leaves `Walk`. -/
def brokenSched : List Action :=
  [.main, .main, .main, .main, .main, .worker 0 0 0, .worker 0 1 2, .worker 0 0 0, .reader,
    .worker 0 0 0, .main]

/-- Where `brokenSched` leaves the run on `brokenFS`. -/
def brokenFinal : State :=
  { pc := .crashed
    pending := []
    retval := none
    panicking := true
    buildch := { cap := 20, buf := [], closed := true }
    buildwg := 0
    workers := [.exited]
    OutputCh := { cap := 1, buf := [], closed := false }
    received :=
      [⟨"dir/a.txt", "2cf24dba5fb0a30e26e83b2ac5b9e29e1b161e5c1fa7425e73043362938b9824", 1, 2,
        none⟩] }

/-- A schedule on a root that is missing: with the default filter the traversal
panics at once; the deferred calls run and the panic leaves `Walk`. -/
def missingSched : List Action := [.main, .main, .main, .main, .worker 0 0 0, .main]

/-- The builder `New("missing", crypto.SHA256, make(chan *HashResult, 1), 1)`
returns; `Lstat` fails on `missing`. -/
def missingBuilder : recursiveHashBuilder :=
  { demoBuilder with path := "missing", workers := 1 }

/-- A filter that tolerates nil metadata and accepts nothing. -/
def rejectAll : Filter := fun _ _ _ => some false


/-! ## Modes and the default filter -/

theorem ModeType_testBit (k : Nat) :
    ModeType.testBit k =
      (k = 31 ∨ k = 27 ∨ k = 26 ∨ k = 25 ∨ k = 24 ∨ k = 21 ∨ k = 19 : Bool) := by
  simp only [ModeType, ModeDir, ModeSymlink, ModeNamedPipe, ModeSocket, ModeDevice,
    ModeCharDevice, ModeIrregular, Nat.testBit_or, Nat.testBit_two_pow]
  by_cases h31 : k = 31 <;> by_cases h27 : k = 27 <;> by_cases h26 : k = 26 <;>
    by_cases h25 : k = 25 <;> by_cases h24 : k = 24 <;> by_cases h21 : k = 21 <;>
    by_cases h19 : k = 19 <;> simp [*, eq_comm]

theorem IsRegular_iff (m : Nat) :
    IsRegular m = true ↔ ∀ k ∈ typeBits, m.testBit k = false := by
  unfold IsRegular
  rw [beq_iff_eq]
  constructor
  · intro h k hk
    have h1 : (m &&& ModeType).testBit k = false := by rw [h]; simp
    rw [Nat.testBit_and, ModeType_testBit] at h1
    simp [typeBits] at hk
    rcases hk with rfl | rfl | rfl | rfl | rfl | rfl | rfl <;> simpa using h1
  · intro h
    apply Nat.eq_of_testBit_eq
    intro i
    rw [Nat.testBit_and, ModeType_testBit]
    simp only [Nat.zero_testBit]
    by_cases hi : i ∈ typeBits
    · rw [h i hi]; simp
    · simp [typeBits] at hi
      simp [hi]

theorem and_ModeSymlink (m : Nat) : (m &&& ModeSymlink != 0) = m.testBit 27 := by
  unfold ModeSymlink
  rw [Nat.and_two_pow]
  cases h : m.testBit 27 <;> simp

theorem DefaultFilter_some (path : String) (info : FileInfo) (err : Option GoError) :
    DefaultFilter path (some info) err
      = some (IsRegular info.Mode || info.Mode.testBit 27) := by
  simp [DefaultFilter, and_ModeSymlink]

/-- C3: on non-nil metadata `DefaultFilter` returns normally; it returns true
exactly when the mode is that of a regular file (no type bit set) or has the
symlink bit (bit 27) set; a mode with the directory, device, named-pipe or
socket bit and without the symlink bit gives false; and the result is the same
for every path and every error argument. -/
theorem DefaultFilter_regular_or_symlink (path path2 : String) (info : FileInfo)
    (err err2 : Option GoError) :
    (∃ r, DefaultFilter path (some info) err = some r) ∧
    (DefaultFilter path (some info) err = some true ↔
      ((∀ k ∈ typeBits, info.Mode.testBit k = false) ∨ info.Mode.testBit 27 = true)) ∧
    (info.Mode.testBit 27 = false →
      (info.Mode.testBit 31 = true ∨ info.Mode.testBit 26 = true ∨
        info.Mode.testBit 25 = true ∨ info.Mode.testBit 24 = true) →
      DefaultFilter path (some info) err = some false) ∧
    DefaultFilter path (some info) err = DefaultFilter path2 (some info) err2 := by
  have key : DefaultFilter path (some info) err = some true ↔
      ((∀ k ∈ typeBits, info.Mode.testBit k = false) ∨ info.Mode.testBit 27 = true) := by
    rw [DefaultFilter_some, ← IsRegular_iff]
    simp
  refine ⟨⟨_, DefaultFilter_some path info err⟩, key, ?_, ?_⟩
  · intro hsym hty
    have hne : DefaultFilter path (some info) err ≠ some true := by
      rw [Ne, key]
      rintro (h | h)
      · have h31 := h 31 (by simp [typeBits])
        have h26 := h 26 (by simp [typeBits])
        have h25 := h 25 (by simp [typeBits])
        have h24 := h 24 (by simp [typeBits])
        rcases hty with h1 | h1 | h1 | h1 <;> simp_all
      · simp_all
    rw [DefaultFilter_some] at hne ⊢
    cases hb : (IsRegular info.Mode || info.Mode.testBit 27) <;> simp_all
  · rw [DefaultFilter_some, DefaultFilter_some]

/-- C4: with nil entry metadata `DefaultFilter` does not return a boolean: the
call `info.Mode()` panics, whatever the path and the error are, so the
`walkfunc` of a builder with the default filter panics on the call
`walkfunc(path, nil, err)` that `filepath.Walk` makes when `Lstat` fails. -/
theorem DefaultFilter_nil_info_panics (path : String) (err : GoError)
    (b : recursiveHashBuilder) (sent : List String) :
    DefaultFilter path none (some err) = none ∧
    (∀ r : Bool, DefaultFilter path none (some err) ≠ some r) ∧
    (b.filter = DefaultFilter → walkfunc b path none (some err) sent = .panic sent) := by
  refine ⟨rfl, ?_, ?_⟩
  · intro r h
    simp [DefaultFilter] at h
  · intro hb
    simp [walkfunc, hb, DefaultFilter]

/-! ## `New` -/

/-- C2: `New` returns a non-nil error exactly when `workers < 1`, and then
returns no builder and leaves the output channel as it was; when
`1 ≤ workers` the error is nil and the builder returned has `Path()` equal to
the given path. -/
theorem New_error_iff_workers_lt_one (path : String) (hash : CryptoHash)
    (outch : Chan HashResult) (workers : Int) :
    ((New path hash outch workers).err ≠ none ↔ workers < 1) ∧
    (workers < 1 → (New path hash outch workers).builder.isNone = true ∧
      (New path hash outch workers).outch = outch) ∧
    (1 ≤ workers → (New path hash outch workers).err = none ∧
      ∃ b, (New path hash outch workers).builder = some b ∧ b.Path = path ∧
        (New path hash outch workers).outch = outch) := by
  by_cases h : workers < 1
  · simp [New, h]
  · simp [New, h, recursiveHashBuilder.Path]

/-! ## Hashing one file -/

theorem hexValue_hexDigit (d : Nat) (h : d < 16) : hexValue (hexDigit d) = some d := by
  interval_cases d <;> decide

theorem hexDigit_mem (d : Nat) (h : d < 16) : hexDigit d ∈ "0123456789abcdef".toList := by
  interval_cases d <;> decide

theorem hexDecode_flatMap_hexByte (bs : List Byte) :
    hexDecode (bs.flatMap hexByte) = some bs := by
  induction bs with
  | nil => rfl
  | cons b rest ih =>
    have h1 : b.val / 16 < 16 := by omega
    have h2 : b.val % 16 < 16 := by omega
    have hb : byteOf (b.val / 16 * 16 + b.val % 16) = b := by
      apply Fin.ext
      simp only [byteOf]
      omega
    have e : (b :: rest).flatMap hexByte
        = hexDigit (b.val / 16) :: hexDigit (b.val % 16) :: rest.flatMap hexByte := by
      simp [List.flatMap_cons, hexByte]
    rw [e]
    simp only [hexDecode, hexValue_hexDigit _ h1, hexValue_hexDigit _ h2, ih, hb]

theorem length_flatMap_hexByte (bs : List Byte) :
    (bs.flatMap hexByte).length = 2 * bs.length := by
  induction bs with
  | nil => rfl
  | cons b rest ih => simp [List.flatMap_cons, hexByte, ih]; omega

theorem mem_flatMap_hexByte (bs : List Byte) (c : Char) (h : c ∈ bs.flatMap hexByte) :
    c ∈ "0123456789abcdef".toList := by
  rw [List.mem_flatMap] at h
  obtain ⟨b, _, hc⟩ := h
  simp only [hexByte, List.mem_cons, List.mem_singleton, List.not_mem_nil, or_false] at hc
  rcases hc with rfl | rfl
  · exact hexDigit_mem _ (by omega)
  · exact hexDigit_mem _ (by omega)

theorem ioCopy_fst (hasher : List Byte) (f : OpenFile) :
    (ioCopy hasher f).1 = hasher ++ f.contents := by
  simp only [ioCopy, OpenFile.contents]
  generalize f.chunks = cs
  induction cs generalizing hasher with
  | nil => simp
  | cons c rest ih => simp [List.foldl_cons, ih, List.append_assoc]

theorem BuildFileHash_ok (osOpen : String → Except GoError OpenFile) (hash : CryptoHash)
    (filename : String) (f : OpenFile) (hopen : osOpen filename = .ok f)
    (hread : f.readErr = none) :
    BuildFileHash osOpen hash filename = (hexEncode (hash.Sum f.contents), none) := by
  have h := ioCopy_fst [] f
  simp only [BuildFileHash, hopen]
  have h2 : (ioCopy [] f).2 = none := by simp [ioCopy, hread]
  rcases hio : ioCopy [] f with ⟨acc, e⟩
  rw [hio] at h h2
  simp only at h h2
  subst h2
  simp [h]

theorem BuildFileHash_open_error (osOpen : String → Except GoError OpenFile)
    (hash : CryptoHash) (filename : String) (e : GoError)
    (hopen : osOpen filename = .error e) :
    BuildFileHash osOpen hash filename = ("", some e) := by
  simp [BuildFileHash, hopen]

theorem BuildFileHash_read_error (osOpen : String → Except GoError OpenFile)
    (hash : CryptoHash) (filename : String) (f : OpenFile) (e : GoError)
    (hopen : osOpen filename = .ok f) (hread : f.readErr = some e) :
    BuildFileHash osOpen hash filename = ("", some e) := by
  have : ioCopy [] f = ((ioCopy [] f).1, some e) := by simp [ioCopy, hread]
  simp only [BuildFileHash, hopen]
  rw [this]

theorem hexEncode_ne_empty (hash : CryptoHash) (data : List Byte) :
    hexEncode (hash.Sum data) ≠ "" := by
  intro h
  have h1 : (hexEncode (hash.Sum data)).length = 0 := by rw [h]; rfl
  have h2 : (hexEncode (hash.Sum data)).length = 2 * hash.Size := by
    simp only [hexEncode, String.length, length_flatMap_hexByte, hash.sum_length]
  have := hash.size_pos
  omega


/-- C8: for a file that opens and reads to the end, `BuildFileHash` returns,
with a nil error, the hex encoding of the digest of the whole contents: twice
`Size()` characters, each one of `0123456789abcdef`, which decode to the digest
bytes; and any file with the same contents gives the same string under the same
algorithm. -/
theorem BuildFileHash_hex_of_digest (osOpen : String → Except GoError OpenFile)
    (hash : CryptoHash) (filename : String) (f : OpenFile)
    (hopen : osOpen filename = .ok f) (hread : f.readErr = none) :
    BuildFileHash osOpen hash filename = (hexEncode (hash.Sum f.contents), none) ∧
    (BuildFileHash osOpen hash filename).1.length = 2 * hash.Size ∧
    (∀ c ∈ (BuildFileHash osOpen hash filename).1.toList, c ∈ "0123456789abcdef".toList) ∧
    hexDecode (BuildFileHash osOpen hash filename).1.toList = some (hash.Sum f.contents) ∧
    (∀ (osOpen2 : String → Except GoError OpenFile) (filename2 : String) (f2 : OpenFile),
      osOpen2 filename2 = .ok f2 → f2.readErr = none → f2.contents = f.contents →
      BuildFileHash osOpen2 hash filename2 = BuildFileHash osOpen hash filename) := by
  have h := BuildFileHash_ok osOpen hash filename f hopen hread
  refine ⟨h, ?_, ?_, ?_, ?_⟩
  · rw [h]
    simp only [hexEncode, String.length, length_flatMap_hexByte, hash.sum_length]
  · rw [h]
    intro c hc
    exact mem_flatMap_hexByte _ c hc
  · rw [h]
    exact hexDecode_flatMap_hexByte _
  · intro osOpen2 filename2 f2 h2 hr2 hc
    rw [h, BuildFileHash_ok osOpen2 hash filename2 f2 h2 hr2, hc]

set_option maxRecDepth 100000 in
/-- The empty file `root/d/link` under SHA-256 gives the digest of the empty
input. -/
theorem BuildFileHash_hex_of_digest_witness :
    demoFS.Open "root/d/link" = .ok ⟨[], none⟩ ∧
    BuildFileHash demoFS.Open SHA256 "root/d/link"
      = ("e3b0c44298fc1c149afbf4c8996fb92427ae41e4649b934ca495991b7852b855", none) :=
  ⟨rfl, (BuildFileHash_hex_of_digest demoFS.Open SHA256 "root/d/link" ⟨[], none⟩ rfl rfl).1.trans
    (by decide)⟩

/-! ## The traversal -/

mutual
theorem walk_fold {σ : Type} (fn : WalkFunc σ) (u : Visit → σ → σ) (path : String) :
    ∀ (node : Node) (s : σ),
      (∀ v ∈ node.visits path, ∀ s, fn v.path v.info v.err s = .done none (u v s)) →
      walk fn path node s = .done none ((node.visits path).foldl (fun s v => u v s) s)
  | .noent err, s, h => by
    have := h ⟨path, none, some err⟩ (by simp [Node.visits]) s
    simpa [walk, Node.visits] using this
  | .entry info readErr names, s, h => by
    by_cases hd : IsDir info.Mode = true
    · by_cases hr : readErr = none
      · subst hr
        have hv : Node.visits path (.entry info none names)
            = ⟨path, some info, none⟩ :: names.visits := by
          simp [Node.visits, hd]
        rw [hv] at h ⊢
        have h0 := h ⟨path, some info, none⟩ (by simp) s
        have ih := walkNames_fold fn u names (u ⟨path, some info, none⟩ s)
          (fun v hv s => h v (by simp [hv]) s)
        simp only at h0
        simp [walk, hd, h0, ih]
      · have hv : Node.visits path (.entry info readErr names)
            = [⟨path, some info, readErr⟩] := by
          simp [Node.visits, hd, hr]
        rw [hv] at h ⊢
        have h0 := h ⟨path, some info, readErr⟩ (by simp) s
        simp only at h0
        simp [walk, hd, h0, hr]
    · have hv : Node.visits path (.entry info readErr names)
          = [⟨path, some info, none⟩] := by
        simp [Node.visits, hd]
      rw [hv] at h ⊢
      have h0 := h ⟨path, some info, none⟩ (by simp) s
      simp only at h0
      simp [walk, hd, h0]
theorem walkNames_fold {σ : Type} (fn : WalkFunc σ) (u : Visit → σ → σ) :
    ∀ (names : Kids) (s : σ),
      (∀ v ∈ names.visits, ∀ s, fn v.path v.info v.err s = .done none (u v s)) →
      walkNames fn names s = .done none (names.visits.foldl (fun s v => u v s) s)
  | .nil, s, _ => by simp [walkNames, Kids.visits]
  | .cons filename node rest, s, h => by
    have ih1 := walk_fold fn u filename node s
      (fun v hv s => h v (by simp [Kids.visits, hv]) s)
    have ih2 := walkNames_fold fn u rest
      ((node.visits filename).foldl (fun s v => u v s) s)
      (fun v hv s => h v (by simp [Kids.visits, hv]) s)
    cases node <;> simp [walkNames, ih1, ih2, Kids.visits, List.foldl_append]
end

mutual
theorem walk_returns_nil {σ : Type} (fn : WalkFunc σ)
    (hfn : ∀ p i e s a s1, fn p i e s = .done a s1 → a = none) (path : String) :
    ∀ (node : Node) (s : σ) (a : Option WalkError) (s1 : σ),
      walk fn path node s = .done a s1 → a = none
  | .noent err, s, a, s1, h => by
    simp only [walk] at h
    exact hfn _ _ _ _ _ _ h
  | .entry info readErr names, s, a, s1, h => by
    simp only [walk] at h
    split at h
    · exact hfn _ _ _ _ _ _ h
    · split at h
      · cases h
      · rename_i err1 s2 hcall
        have := hfn _ _ _ _ _ _ hcall
        subst this
        split at h
        · cases h; rfl
        · exact walkNames_returns_nil fn hfn names _ _ _ h
theorem walkNames_returns_nil {σ : Type} (fn : WalkFunc σ)
    (hfn : ∀ p i e s a s1, fn p i e s = .done a s1 → a = none) :
    ∀ (names : Kids) (s : σ) (a : Option WalkError) (s1 : σ),
      walkNames fn names s = .done a s1 → a = none
  | .nil, s, a, s1, h => by
    simp only [walkNames] at h
    cases h; rfl
  | .cons filename node rest, s, a, s1, h => by
    simp only [walkNames] at h
    split at h
    · cases h
    · rename_i e s2 hcall
      have := walk_returns_nil fn hfn filename node _ _ _ hcall
      subst this
      split at h
      · cases h; rfl
      · exact walkNames_returns_nil fn hfn rest _ _ _ h
end


theorem walkVisits_eq (fs : FileSystem) (root : String) :
    walkVisits fs root = (fs.Lstat root).visits root := by
  have h := walk_fold recordVisit (fun v log => log ++ [v]) root (fs.Lstat root) []
    (fun v _ s => rfl)
  have hf : ∀ (vs log : List Visit),
      vs.foldl (fun s v => (fun v log => log ++ [v]) v s) log = log ++ vs := by
    intro vs
    induction vs with
    | nil => simp
    | cons v rest ih => intro log; simp [List.foldl_cons, ih]
  simp [walkVisits, filepathWalk, h, hf, Outcome.state]

theorem walkfunc_returns_nil (b : recursiveHashBuilder) (p : String) (i : Option FileInfo)
    (e : Option GoError) (s : List String) (a : Option WalkError) (s1 : List String)
    (h : walkfunc b p i e s = .done a s1) : a = none := by
  unfold walkfunc at h
  split at h
  · cases h
  · cases h; rfl
  · cases h; rfl

theorem traversal_returns_nil (b : recursiveHashBuilder) (fs : FileSystem)
    (a : Option WalkError) (s : List String) (h : traversal b fs = .done a s) : a = none := by
  unfold traversal filepathWalk at h
  split at h
  · cases h
  · rename_i err s1 hw
    have := walk_returns_nil (walkfunc b) (walkfunc_returns_nil b) b.path _ _ _ _ hw
    subst this
    simp at h
    exact h.1.symm

theorem traversal_of_total (b : recursiveHashBuilder) (fs : FileSystem)
    (h : ∀ v ∈ walkVisits fs b.path, b.filter v.path v.info v.err ≠ none) :
    traversal b fs = .done none (acceptedPaths b.filter (walkVisits fs b.path)) := by
  rw [walkVisits_eq] at h ⊢
  let u : Visit → List String → List String :=
    fun v sent => if b.filter v.path v.info v.err = some true then sent ++ [v.path] else sent
  have hw := walk_fold (walkfunc b) u b.path (fs.Lstat b.path) [] (by
    intro v hv s
    have hne := h v hv
    simp only [walkfunc, u]
    cases hf : b.filter v.path v.info v.err with
    | none => exact absurd hf hne
    | some r => cases r <;> simp)
  have hf : ∀ (vs : List Visit) (sent : List String),
      vs.foldl (fun s v => u v s) sent = sent ++ acceptedPaths b.filter vs := by
    intro vs
    induction vs with
    | nil => simp [acceptedPaths]
    | cons v rest ih =>
      intro sent
      simp only [List.foldl_cons, ih, u, acceptedPaths]
      by_cases hv : b.filter v.path v.info v.err = some true
      · simp [hv, List.filter_cons]
      · simp [hv, List.filter_cons]
  simp [traversal, filepathWalk, hw, hf]

/-! ## Lists of workers -/

theorem sum_map_set {M : Type} [AddCommMonoid M] (f : Worker → M) :
    ∀ (ws : List Worker) (i : Nat) (w w2 : Worker), ws.get? i = some w →
      ((ws.set i w2).map f).sum + f w = (ws.map f).sum + f w2
  | [], i, w, w2, h => by simp at h
  | x :: rest, 0, w, w2, h => by
    simp only [List.get?_cons_zero, Option.some.injEq] at h
    subst h
    simp only [List.set_cons_zero, List.map_cons, List.sum_cons]
    abel
  | x :: rest, i + 1, w, w2, h => by
    simp only [List.get?_cons_succ] at h
    have ih := sum_map_set f rest i w w2 h
    simp only [List.set_cons_succ, List.map_cons, List.sum_cons, add_assoc, ih]

theorem live_le_sum (ws : List Worker) (w : Worker) (h : w ∈ ws) :
    w.live ≤ (ws.map Worker.live).sum := by
  induction ws with
  | nil => simp at h
  | cons x rest ih =>
    simp only [List.mem_cons] at h
    simp only [List.map_cons, List.sum_cons]
    rcases h with rfl | h
    · omega
    · have := ih h
      omega

theorem all_exited_of_sum (ws : List Worker) (h : (ws.map Worker.live).sum = 0) :
    ∀ w ∈ ws, w = Worker.exited := by
  intro w hw
  have := live_le_sum ws w hw
  cases w <;> simp_all [Worker.live]

theorem load_sum_of_exited (b : recursiveHashBuilder) (fs : FileSystem) (ws : List Worker)
    (h : ∀ w ∈ ws, w = Worker.exited) : (ws.map (Worker.load b fs)).sum = 0 := by
  induction ws with
  | nil => simp
  | cons x rest ih =>
    have hx := h x (by simp)
    subst hx
    simp only [List.map_cons, List.sum_cons, Worker.load, zero_add]
    exact ih (fun w hw => h w (by simp [hw]))

theorem mem_set (ws : List Worker) (i : Nat) (w x : Worker) (h : x ∈ ws.set i w) :
    x = w ∨ x ∈ ws := by
  rcases List.mem_or_eq_of_mem_set h with h | h
  · exact Or.inr h
  · exact Or.inl h

/-! ## The invariant -/

theorem Inv.init (b : recursiveHashBuilder) (fs : FileSystem) (hb : b.Ready) :
    Inv b fs (Walk.init b) := by
  have hw := hb.workers
  constructor <;> simp [Walk.init, hb.buildch, hb.out_empty, hb.out_open, Chan.make, State.todo]
  omega

theorem Inv.stepMain (b : recursiveHashBuilder) (fs : FileSystem) (s s1 : State)
    (h : Inv b fs s) (hs : Walk.stepMain b fs s = some s1) : Inv b fs s1 := by
  obtain ⟨h1, h2, h3, h4, h5, h6, h7, h8, h9, h10, h11, h14, h15, h13, h12⟩ := h
  unfold Walk.stepMain at hs
  split at hs
  · -- spawning
    rename_i hpc
    simp only [hpc, State.todo, if_true, reduceCtorEq, false_or, Bool.not_eq_true, ne_eq,
      not_true_eq_false, IsEmpty.forall_iff, not_false_eq_true, forall_const] at *
    split at hs
    · rename_i hlt
      cases hs
      constructor <;> simp_all [State.todo, Worker.live, Worker.load]
      · omega
      · intro w hw
        rcases hw with hw | hw
        · exact h8.2.2.2 w hw
        · exact hw
    · rename_i hlt
      cases hs
      constructor <;> simp_all [State.todo]
      omega
  · -- walking
    rename_i hpc
    have hclosed : s.buildch.closed = false := by
      cases hc : s.buildch.closed
      · rfl
      · rw [hc] at h5; simp [hpc] at h5
    simp only [hpc, State.todo, reduceCtorEq, if_false] at h12
    split at hs
    · rename_i path rest hp
      simp only [hclosed, Bool.false_eq_true, if_false] at hs
      split at hs
      · cases hs
        constructor
        case conserve =>
          rw [← h12]
          simp only [State.todo, hpc, reduceCtorEq, if_false, hp, List.map_cons,
            List.map_append, List.map_nil, ← Multiset.cons_coe, ← Multiset.singleton_add,
            ← Multiset.coe_add, Multiset.coe_nil, add_zero]
          abel
        all_goals (clear h12; simp_all)
      · cases hs
    · rename_i hp
      split at hs
      · cases hs
        constructor <;> simp_all [State.todo]
      · rename_i err tr htr
        have := traversal_returns_nil b fs _ _ htr
        subst this
        cases hs
        constructor <;> simp_all [State.todo]
  · -- closing
    rename_i hpc
    have hclosed : s.buildch.closed = false := by
      cases hc : s.buildch.closed
      · rfl
      · rw [hc] at h5; simp [hpc] at h5
    simp only [hclosed, Bool.false_eq_true, if_false] at hs
    cases hs
    constructor <;> simp_all [State.todo]
  · -- waiting
    rename_i hpc
    split at hs
    · split at hs
      · cases hs
        constructor <;> simp_all [State.todo]
      · cases hs
        constructor <;> simp_all [State.todo]
    · cases hs
  · cases hs
  · cases hs

theorem Inv.buildhash (b : recursiveHashBuilder) (fs : FileSystem) (s s1 : State)
    (i start stop : Nat) (h : Inv b fs s) (hs : buildhash b fs i start stop s = some s1) :
    Inv b fs s1 := by
  obtain ⟨h1, h2, h3, h4, h5, h6, h7, h8, h9, h10, h11, h14, h15, h13, h12⟩ := h
  unfold Recsum.buildhash at hs
  split at hs
  · cases hs
  · -- ranging
    rename_i hw
    have hmem : Worker.ranging ∈ s.workers := List.get?_mem hw
    have hlive := live_le_sum _ _ hmem
    simp only [Worker.live] at hlive
    split at hs
    · -- a path is received
      rename_i path rest hbuf
      have hpc : s.pc ≠ .spawning := by
        intro hpc
        rw [(h8 hpc).1] at hbuf
        cases hbuf
      have hex : Worker.exited ∉ s.workers := by
        intro hex
        rw [(h7 hex).2] at hbuf
        cases hbuf
      have hl := sum_map_set Worker.live s.workers i _ (.hashing path) hw
      have hld := sum_map_set (Worker.load b fs) s.workers i _ (.hashing path) hw
      simp only [Worker.live, Nat.add_right_cancel_iff] at hl
      simp only [Worker.load, add_zero] at hld
      cases hs
      constructor
      case conserve =>
        rw [← h12]
        simp only [State.todo, hbuf, hld, List.map_cons, ← Multiset.cons_coe,
          ← Multiset.singleton_add]
        abel
      case exited =>
        intro hx
        rcases mem_set _ _ _ _ hx with hx | hx
        · cases hx
        · exact absurd hx hex
      case idle =>
        intro hx
        exact absurd hx hpc
      all_goals (clear h12; simp_all)
    · split at hs
      · -- the channel is closed and empty: the worker exits
        rename_i hbuf hclosed
        have hpc : s.pc = .waiting ∨ s.pc = .returned ∨ s.pc = .crashed := h5.1 hclosed
        have hl := sum_map_set Worker.live s.workers i _ .exited hw
        have hld := sum_map_set (Worker.load b fs) s.workers i _ .exited hw
        simp only [Worker.live, add_zero] at hl
        simp only [Worker.load, add_zero] at hld
        have hnr : ¬ (s.pc = .returned ∨ s.pc = .crashed) := by
          intro hr
          have := h9 hr
          omega
        cases hs
        constructor
        case conserve =>
          rw [← h12]
          simp only [State.todo, hld]
        case wg =>
          simp only [h4, ← hl]
          push_cast
          omega
        case exited =>
          intro _
          exact ⟨hclosed, hbuf⟩
        case idle =>
          intro hx
          rcases hpc with hpc | hpc | hpc <;> simp_all
        case returned =>
          intro hx
          exact absurd hx hnr
        all_goals (clear h12; simp_all)
      · cases hs
  · -- hashing
    rename_i path hw
    have hmem : Worker.hashing path ∈ s.workers := List.get?_mem hw
    have hpc : s.pc ≠ .spawning := by
      intro hpc
      have := (h8 hpc).2.2.2 _ hmem
      cases this
    have hl := sum_map_set Worker.live s.workers i _
      (.sending ⟨path, (BuildFileHash fs.Open b.hash path).1, start, stop,
        (BuildFileHash fs.Open b.hash path).2⟩) hw
    have hld := sum_map_set (Worker.load b fs) s.workers i _
      (.sending ⟨path, (BuildFileHash fs.Open b.hash path).1, start, stop,
        (BuildFileHash fs.Open b.hash path).2⟩) hw
    simp only [Worker.live, Nat.add_right_cancel_iff] at hl
    have hrep : (Worker.load b fs (.sending ⟨path, (BuildFileHash fs.Open b.hash path).1, start,
        stop, (BuildFileHash fs.Open b.hash path).2⟩)) = Worker.load b fs (.hashing path) := by
      simp [Worker.load, HashResult.report, jobReport]
    rw [hrep] at hld
    have hld := add_right_cancel hld
    cases hs
    constructor
    case conserve =>
      rw [← h12]
      simp only [State.todo, hld]
    case exited =>
      intro hx
      rcases mem_set _ _ _ _ hx with hx | hx
      · cases hx
      · exact h7 hx
    case idle =>
      intro hx
      exact absurd hx hpc
    all_goals (clear h12; simp_all)
  · -- sending
    rename_i r hw
    have hmem : Worker.sending r ∈ s.workers := List.get?_mem hw
    have hpc : s.pc ≠ .spawning := by
      intro hpc
      have := (h8 hpc).2.2.2 _ hmem
      cases this
    have hl := sum_map_set Worker.live s.workers i _ .ranging hw
    have hld := sum_map_set (Worker.load b fs) s.workers i _ .ranging hw
    simp only [Worker.live, Nat.add_right_cancel_iff] at hl
    simp only [Worker.load, add_zero] at hld
    simp only [h1, Bool.false_eq_true, if_false] at hs
    split at hs
    · cases hs
      constructor
      case conserve =>
        rw [← h12, ← hld]
        simp only [State.todo, List.map_append, List.map_cons, List.map_nil, ← Multiset.coe_add,
          ← Multiset.cons_coe, ← Multiset.singleton_add, Multiset.coe_nil, add_zero]
        abel
      case exited =>
        intro hx
        rcases mem_set _ _ _ _ hx with hx | hx
        · cases hx
        · exact h7 hx
      case idle =>
        intro hx
        exact absurd hx hpc
      all_goals (clear h12; simp_all)
    · split at hs
      · cases hs
        constructor
        case conserve =>
          rw [← h12, ← hld]
          simp only [State.todo, List.map_append, List.map_cons, List.map_nil,
            ← Multiset.coe_add, ← Multiset.cons_coe, ← Multiset.singleton_add,
            Multiset.coe_nil, add_zero]
          abel
        case exited =>
          intro hx
          rcases mem_set _ _ _ _ hx with hx | hx
          · cases hx
          · exact h7 hx
        case idle =>
          intro hx
          exact absurd hx hpc
        all_goals (clear h12; simp_all)
      · cases hs
  · cases hs

theorem Inv.readOutput (b : recursiveHashBuilder) (fs : FileSystem) (s s1 : State)
    (h : Inv b fs s) (hs : readOutput s = some s1) : Inv b fs s1 := by
  obtain ⟨h1, h2, h3, h4, h5, h6, h7, h8, h9, h10, h11, h14, h15, h13, h12⟩ := h
  unfold Recsum.readOutput at hs
  split at hs
  · rename_i r rest hbuf
    have hpc : s.pc ≠ .spawning := by
      intro hpc
      rw [(h8 hpc).2.1] at hbuf
      cases hbuf
    cases hs
    constructor
    case conserve =>
      rw [← h12]
      simp only [State.todo, hbuf, List.map_append, List.map_cons, List.map_nil,
        ← Multiset.coe_add, ← Multiset.cons_coe, ← Multiset.singleton_add,
        Multiset.coe_nil, add_zero]
      abel
    case idle =>
      intro hx
      exact absurd hx hpc
    all_goals (clear h12; simp_all)
  · cases hs


theorem Inv.step (b : recursiveHashBuilder) (fs : FileSystem) (s s1 : State) (a : Action)
    (h : Inv b fs s) (hs : Walk.step b fs s a = some s1) : Inv b fs s1 := by
  unfold Walk.step at hs
  split at hs
  · cases hs
  · cases a with
    | main => exact Inv.stepMain b fs s s1 h hs
    | worker i start stop => exact Inv.buildhash b fs s s1 i start stop h hs
    | reader => exact Inv.readOutput b fs s s1 h hs

theorem Inv.run (b : recursiveHashBuilder) (fs : FileSystem) :
    ∀ (sched : List Action) (s s1 : State), Inv b fs s → Walk.run b fs s sched = some s1 →
      Inv b fs s1
  | [], s, s1, h, hr => by
    simp only [Walk.run, Option.some.injEq] at hr
    subst hr
    exact h
  | a :: rest, s, s1, h, hr => by
    simp only [Walk.run] at hr
    split at hr
    · cases hr
    · rename_i s2 hstep
      exact Inv.run b fs rest s2 s1 (Inv.step b fs s s2 a h hstep) hr

theorem Inv.reachable (b : recursiveHashBuilder) (fs : FileSystem) (hb : b.Ready)
    (sched : List Action) (s : State) (hr : Walk.run b fs (Walk.init b) sched = some s) :
    Inv b fs s :=
  Inv.run b fs sched _ s (Inv.init b fs hb) hr

/-! ## Every step decreases the measure -/

theorem measure_stepMain (b : recursiveHashBuilder) (fs : FileSystem) (s s1 : State)
    (hs : Walk.stepMain b fs s = some s1) : s1.measure b fs < s.measure b fs := by
  unfold Walk.stepMain at hs
  split at hs
  · rename_i hpc
    split at hs
    · rename_i hlt
      cases hs
      simp only [State.measure, State.todo, hpc, Pc.rank, List.length_append, List.length_cons,
        List.length_nil, List.map_append, List.map_cons, List.map_nil, List.sum_append,
        List.sum_cons, List.sum_nil, Worker.rank, if_true]
      omega
    · cases hs
      simp [State.measure, State.todo, hpc, Pc.rank]
  · rename_i hpc
    split at hs
    · rename_i path rest hp
      split at hs
      · cases hs
        simp [State.measure, State.todo, hpc, Pc.rank]
      · split at hs
        · cases hs
          simp only [State.measure, State.todo, hpc, hp, Pc.rank, List.length_append,
            List.length_cons, List.length_nil, reduceCtorEq, if_false]
          omega
        · cases hs
    · split at hs
      · cases hs
        simp [State.measure, State.todo, hpc, Pc.rank]
      · cases hs
        simp [State.measure, State.todo, hpc, Pc.rank]
  · rename_i hpc
    split at hs <;> cases hs <;> simp [State.measure, State.todo, hpc, Pc.rank]
  · rename_i hpc
    split at hs
    · split at hs <;> cases hs <;> simp [State.measure, State.todo, hpc, Pc.rank]
    · cases hs
  · cases hs
  · cases hs

theorem measure_buildhash (b : recursiveHashBuilder) (fs : FileSystem) (s s1 : State)
    (i start stop : Nat) (ho : s.OutputCh.closed = false)
    (hs : buildhash b fs i start stop s = some s1) : s1.measure b fs < s.measure b fs := by
  unfold Recsum.buildhash at hs
  split at hs
  · cases hs
  · rename_i hw
    split at hs
    · rename_i path rest hbuf
      have hr := sum_map_set Worker.rank s.workers i _ (.hashing path) hw
      simp only [Worker.rank] at hr
      cases hs
      simp only [State.measure, State.todo, hbuf, List.length_set, List.length_cons]
      omega
    · split at hs
      · have hr := sum_map_set Worker.rank s.workers i _ .exited hw
        simp only [Worker.rank] at hr
        cases hs
        simp only [State.measure, State.todo, List.length_set]
        omega
      · cases hs
  · rename_i path hw
    have hr := sum_map_set Worker.rank s.workers i _
      (.sending ⟨path, (BuildFileHash fs.Open b.hash path).1, start, stop,
        (BuildFileHash fs.Open b.hash path).2⟩) hw
    simp only [Worker.rank] at hr
    cases hs
    simp only [State.measure, State.todo, List.length_set]
    omega
  · rename_i r hw
    have hr := sum_map_set Worker.rank s.workers i _ .ranging hw
    simp only [Worker.rank] at hr
    split at hs
    · rename_i hcl
      rw [ho] at hcl
      cases hcl
    · split at hs
      · cases hs
        simp only [State.measure, State.todo, List.length_set, List.length_append,
          List.length_cons, List.length_nil]
        omega
      · split at hs
        · cases hs
          simp only [State.measure, State.todo, List.length_set]
          omega
        · cases hs
  · cases hs

theorem measure_readOutput (b : recursiveHashBuilder) (fs : FileSystem) (s s1 : State)
    (hs : readOutput s = some s1) : s1.measure b fs < s.measure b fs := by
  unfold Recsum.readOutput at hs
  split at hs
  · rename_i r rest hbuf
    cases hs
    simp only [State.measure, State.todo, hbuf, List.length_cons]
    omega
  · cases hs

theorem measure_step (b : recursiveHashBuilder) (fs : FileSystem) (s s1 : State) (a : Action)
    (ho : s.OutputCh.closed = false)
    (hs : Walk.step b fs s a = some s1) : s1.measure b fs < s.measure b fs := by
  unfold Walk.step at hs
  split at hs
  · cases hs
  · rename_i hc
    cases a with
    | main => exact measure_stepMain b fs s s1 hs
    | worker i start stop => exact measure_buildhash b fs s s1 i start stop ho hs
    | reader => exact measure_readOutput b fs s s1 hs


theorem measure_run (b : recursiveHashBuilder) (fs : FileSystem) :
    ∀ (sched : List Action) (s s1 : State), Inv b fs s → Walk.run b fs s sched = some s1 →
      sched.length + s1.measure b fs ≤ s.measure b fs
  | [], s, s1, _, h => by
    simp only [Walk.run, Option.some.injEq] at h
    subst h
    simp
  | a :: rest, s, s1, hi, h => by
    simp only [Walk.run] at h
    split at h
    · cases h
    · rename_i s2 hstep
      have h1 := measure_step b fs s s2 a hi.out_open hstep
      have h2 := measure_run b fs rest s2 s1 (Inv.step b fs s s2 a hi hstep) h
      simp only [List.length_cons]
      omega

/-! ## No panic, no deadlock -/

/-- When the filter returns normally on the whole traversal, no panic ends the
program. -/
theorem Inv.not_crashed (b : recursiveHashBuilder) (fs : FileSystem) (s : State)
    (a : Option WalkError) (tr : List String) (htr : traversal b fs = .done a tr)
    (h : Inv b fs s) : s.pc ≠ .crashed := by
  intro hc
  have hp := h.crashed hc
  rcases h.walked (Or.inr (Or.inr (Or.inr hc))) with ⟨h1, _⟩ | ⟨_, tr2, h2⟩
  · rw [hp] at h1
    cases h1
  · rw [htr] at h2
    cases h2

theorem step_not_crashed (b : recursiveHashBuilder) (fs : FileSystem) (s s1 : State)
    (act : Action) (a : Option WalkError) (tr : List String)
    (htr : traversal b fs = .done a tr) (h : Inv b fs s)
    (hs : Walk.step b fs s act = some s1) : s1.pc ≠ .crashed :=
  Inv.not_crashed b fs s1 a tr htr (Inv.step b fs s s1 act h hs)

theorem run_not_crashed (b : recursiveHashBuilder) (fs : FileSystem)
    (a : Option WalkError) (tr : List String) (htr : traversal b fs = .done a tr)
    (sched : List Action) (s s1 : State) (h : Inv b fs s)
    (hr : Walk.run b fs s sched = some s1) : s1.pc ≠ .crashed :=
  Inv.not_crashed b fs s1 a tr htr (Inv.run b fs sched s s1 h hr)

theorem step_main (b : recursiveHashBuilder) (fs : FileSystem) (s : State)
    (hc : s.pc ≠ .crashed) : Walk.step b fs s .main = Walk.stepMain b fs s := by
  simp [Walk.step, hc]

theorem step_worker (b : recursiveHashBuilder) (fs : FileSystem) (s : State)
    (i start stop : Nat) (hc : s.pc ≠ .crashed) :
    Walk.step b fs s (.worker i start stop) = buildhash b fs i start stop s := by
  simp [Walk.step, hc]

theorem step_reader (b : recursiveHashBuilder) (fs : FileSystem) (s : State)
    (hc : s.pc ≠ .crashed) : Walk.step b fs s .reader = readOutput s := by
  simp [Walk.step, hc]

/-- A worker that has not exited can take a step, or the reader can, unless
the worker waits at an open, empty job queue. -/
theorem worker_progress (b : recursiveHashBuilder) (fs : FileSystem) (s : State)
    (i : Nat) (w : Worker) (hw : s.workers.get? i = some w) (hne : w ≠ .exited)
    (hc : s.pc ≠ .crashed) (ho : s.OutputCh.closed = false)
    (hq : s.buildch.buf ≠ [] ∨ s.buildch.closed = true) :
    ∃ act s1, Walk.step b fs s act = some s1 := by
  have hsw := step_worker b fs s i 0 0 hc
  have hsr := step_reader b fs s hc
  cases w with
  | exited => exact absurd rfl hne
  | ranging =>
    refine ⟨.worker i 0 0, ?_⟩
    rw [hsw]
    simp only [Recsum.buildhash, hw]
    cases hbuf : s.buildch.buf with
    | cons p rest => exact ⟨_, rfl⟩
    | nil =>
      rcases hq with hq | hq
      · exact absurd hbuf hq
      · simp [hq]
  | hashing p =>
    refine ⟨.worker i 0 0, ?_⟩
    rw [hsw]
    simp only [Recsum.buildhash, hw]
    exact ⟨_, rfl⟩
  | sending r =>
    by_cases h1 : s.OutputCh.buf.length < s.OutputCh.cap
    · refine ⟨.worker i 0 0, ?_⟩
      rw [hsw]
      simp only [Recsum.buildhash, hw, ho, Bool.false_eq_true, if_false]
      rw [if_pos h1]
      exact ⟨_, rfl⟩
    · by_cases hbuf : s.OutputCh.buf = []
      · refine ⟨.worker i 0 0, ?_⟩
        rw [hsw]
        simp only [Recsum.buildhash, hw, ho, Bool.false_eq_true, if_false]
        rw [if_neg h1, if_pos hbuf]
        exact ⟨_, rfl⟩
      · refine ⟨.reader, ?_⟩
        rw [hsr]
        unfold readOutput
        cases hb2 : s.OutputCh.buf with
        | nil => exact absurd hb2 hbuf
        | cons r2 rest => exact ⟨_, rfl⟩

theorem exists_live (ws : List Worker) (h : (ws.map Worker.live).sum ≠ 0) :
    ∃ i w, ws.get? i = some w ∧ w ≠ .exited := by
  by_contra hcon
  apply h
  have : ∀ w ∈ ws, w = Worker.exited := by
    intro w hw
    by_contra hne
    obtain ⟨i, hi⟩ := List.mem_iff_get?.1 hw
    exact hcon ⟨i, w, hi, hne⟩
  clear h hcon
  induction ws with
  | nil => simp
  | cons x rest ih =>
    have hx := this x (by simp)
    subst hx
    simp only [List.map_cons, List.sum_cons, Worker.live, zero_add]
    exact ih (fun w hw => this w (by simp [hw]))

/-- Deadlock freedom: unless a panic has ended the program or `Walk` has
returned with the output drained, some goroutine can take a step. -/
theorem progress (b : recursiveHashBuilder) (fs : FileSystem) (hb : b.Ready)
    (s : State) (h : Inv b fs s) (hc : s.pc ≠ .crashed) (hf : ¬ s.finished) :
    ∃ act s1, Walk.step b fs s act = some s1 := by
  have hwk := hb.workers
  have hsm := step_main b fs s hc
  have hsr := step_reader b fs s hc
  have hclosed_of : s.pc = .walking ∨ s.pc = .closing → s.buildch.closed = false := by
    intro hp
    cases hcl : s.buildch.closed
    · rfl
    · have := h.closed_iff.1 hcl
      rcases hp with hp | hp <;> rw [hp] at this <;> simp at this
  by_cases hsp : s.pc = .spawning
  · refine ⟨.main, ?_⟩
    rw [hsm]
    simp only [Walk.stepMain, hsp]
    split <;> exact ⟨_, rfl⟩
  by_cases hwa : s.pc = .walking
  · have hclosed := hclosed_of (Or.inl hwa)
    cases hp : s.pending with
    | nil =>
      refine ⟨.main, ?_⟩
      rw [hsm]
      simp only [Walk.stepMain, hwa, hp]
      split <;> exact ⟨_, rfl⟩
    | cons p rest =>
      by_cases hroom : s.buildch.buf.length < s.buildch.cap
      · refine ⟨.main, ?_⟩
        rw [hsm]
        simp only [Walk.stepMain, hwa, hp, hclosed, Bool.false_eq_true, if_false]
        rw [if_pos hroom]
        exact ⟨_, rfl⟩
      · have hcap := h.cap
        have hlen := h.workers_eq hsp
        have hbuf : s.buildch.buf ≠ [] := by
          intro hnil
          rw [hnil, hcap] at hroom
          simp at hroom
        cases hws : s.workers with
        | nil =>
          rw [hws] at hlen
          simp at hlen
          omega
        | cons w ws =>
          have hw : s.workers.get? 0 = some w := by rw [hws]; rfl
          have hne : w ≠ .exited := by
            intro he
            have := (h.exited (by rw [hws, he]; simp)).1
            rw [hclosed] at this
            cases this
          exact worker_progress b fs s 0 w hw hne hc h.out_open (Or.inl hbuf)
  by_cases hcl : s.pc = .closing
  · have hclosed := hclosed_of (Or.inr hcl)
    refine ⟨.main, ?_⟩
    rw [hsm]
    simp only [Walk.stepMain, hcl, hclosed, Bool.false_eq_true, if_false]
    exact ⟨_, rfl⟩
  by_cases hwt : s.pc = .waiting
  · have hclosed : s.buildch.closed = true := h.closed_iff.2 (Or.inl hwt)
    by_cases hwg : s.buildwg = 0
    · refine ⟨.main, ?_⟩
      rw [hsm]
      simp only [Walk.stepMain, hwt, hwg, if_true]
      split <;> exact ⟨_, rfl⟩
    · have hsum : (s.workers.map Worker.live).sum ≠ 0 := by
        intro h0
        apply hwg
        rw [h.wg, h0]
        rfl
      obtain ⟨i, w, hw, hne⟩ := exists_live _ hsum
      exact worker_progress b fs s i w hw hne hc h.out_open (Or.inr hclosed)
  have hret : s.pc = .returned := by
    cases hpc : s.pc <;> simp_all
  refine ⟨.reader, ?_⟩
  rw [hsr]
  unfold readOutput
  cases hbuf : s.OutputCh.buf with
  | nil => exact absurd ⟨hret, hbuf⟩ hf
  | cons r rest => exact ⟨_, rfl⟩

theorem run_append (b : recursiveHashBuilder) (fs : FileSystem) :
    ∀ (l1 l2 : List Action) (s s1 s2 : State), Walk.run b fs s l1 = some s1 →
      Walk.run b fs s1 l2 = some s2 → Walk.run b fs s (l1 ++ l2) = some s2
  | [], l2, s, s1, s2, h1, h2 => by
    simp only [Walk.run, Option.some.injEq] at h1
    subst h1
    exact h2
  | a :: rest, l2, s, s1, s2, h1, h2 => by
    simp only [Walk.run] at h1
    simp only [List.cons_append, Walk.run]
    split at h1
    · cases h1
    · rename_i s3 hstep
      exact run_append b fs rest l2 s3 s1 s2 h1 h2

/-- Termination: from every state of a run some schedule leads to the state in
which `Walk` has returned and the output is drained. -/
theorem exists_finish (b : recursiveHashBuilder) (fs : FileSystem) (hb : b.Ready)
    (a : Option WalkError) (tr : List String) (htr : traversal b fs = .done a tr) :
    ∀ (n : Nat) (s : State), s.measure b fs ≤ n → Inv b fs s → s.pc ≠ .crashed →
      ∃ sched s1, Walk.run b fs s sched = some s1 ∧ s1.finished
  | 0, s, hn, h, hc => by
    by_cases hf : s.finished
    · exact ⟨[], s, rfl, hf⟩
    · obtain ⟨act, s1, hs⟩ := progress b fs hb s h hc hf
      have := measure_step b fs s s1 act h.out_open hs
      omega
  | n + 1, s, hn, h, hc => by
    by_cases hf : s.finished
    · exact ⟨[], s, rfl, hf⟩
    · obtain ⟨act, s1, hs⟩ := progress b fs hb s h hc hf
      have hm := measure_step b fs s s1 act h.out_open hs
      obtain ⟨sched, s2, hr, hfin⟩ := exists_finish b fs hb a tr htr n s1 (by omega)
        (Inv.step b fs s s1 act h hs) (step_not_crashed b fs s s1 act a tr htr h hs)
      refine ⟨act :: sched, s2, ?_, hfin⟩
      simp only [Walk.run, hs]
      exact hr


/-! ## Builders made by `New` -/

theorem ready_of_New (path : String) (hash : CryptoHash) (outcap : Nat) (workers : Int)
    (b0 : recursiveHashBuilder) (filter : Filter)
    (hnew : (New path hash (Chan.make outcap) workers).builder = some b0) :
    (b0.SetFilter filter).Ready ∧ (b0.SetFilter filter).path = path ∧
      (b0.SetFilter filter).filter = filter ∧ (b0.SetFilter filter).hash = hash ∧
      (b0.SetFilter filter).workers = workers := by
  unfold New at hnew
  split at hnew
  · cases hnew
  · rename_i hw
    simp only [Option.some.injEq] at hnew
    subst hnew
    refine ⟨⟨rfl, rfl, rfl, ?_⟩, rfl, rfl, rfl, rfl⟩
    simp only [recursiveHashBuilder.SetFilter]
    omega

/-! ## What a finished run has delivered -/

theorem returned_reports (b : recursiveHashBuilder) (fs : FileSystem) (hb : b.Ready)
    (s : State) (h : Inv b fs s) (hpc : s.pc = .returned ∨ s.pc = .crashed) :
    (∀ w ∈ s.workers, w = Worker.exited) ∧ s.buildch.buf = [] ∧ s.pending = [] ∧
    (↑(s.OutputCh.buf.map HashResult.report) : Multiset Report)
        + ↑(s.received.map HashResult.report)
      = ↑((traversal b fs).state.map (jobReport b fs)) := by
  have hwg := h.returned hpc
  have hsum : (s.workers.map Worker.live).sum = 0 := by
    have := h.wg
    rw [hwg] at this
    exact_mod_cast this.symm
  have hall := all_exited_of_sum _ hsum
  have hns : s.pc ≠ .spawning := by
    rcases hpc with hpc | hpc <;> simp [hpc]
  have hnw : s.pc ≠ .walking := by
    rcases hpc with hpc | hpc <;> simp [hpc]
  have hlen := h.workers_eq hns
  have hwk := hb.workers
  have hex : Worker.exited ∈ s.workers := by
    cases hws : s.workers with
    | nil =>
      rw [hws] at hlen
      simp at hlen
      omega
    | cons w ws =>
      have := hall w (by rw [hws]; simp)
      subst this
      simp
  have hbuf := (h.exited hex).2
  have hpend := h.pending_nil hnw
  refine ⟨hall, hbuf, hpend, ?_⟩
  have hc := h.conserve
  rw [load_sum_of_exited b fs _ hall, hbuf] at hc
  simp only [State.todo, hns, if_false, hpend, List.map_nil, Multiset.coe_nil,
    zero_add, add_zero] at hc
  exact hc

theorem finished_reports (b : recursiveHashBuilder) (fs : FileSystem) (hb : b.Ready)
    (s : State) (h : Inv b fs s) (hf : s.finished) :
    (↑(s.received.map HashResult.report) : Multiset Report)
      = ↑((traversal b fs).state.map (jobReport b fs)) := by
  have := (returned_reports b fs hb s h (Or.inl hf.1)).2.2.2
  rw [hf.2] at this
  simpa using this

theorem finished_paths (b : recursiveHashBuilder) (fs : FileSystem) (hb : b.Ready)
    (s : State) (h : Inv b fs s) (hf : s.finished) :
    (↑(s.received.map HashResult.Path) : Multiset String) = ↑(traversal b fs).state := by
  have h1 := congrArg (Multiset.map Prod.fst) (finished_reports b fs hb s h hf)
  simp only [Multiset.map_coe, List.map_map] at h1
  have e1 : (Prod.fst ∘ HashResult.report) = HashResult.Path := by
    funext r; rfl
  have e2 : (Prod.fst ∘ jobReport b fs) = id := by
    funext p; rfl
  rw [e1, e2, List.map_id] at h1
  exact h1

theorem load_mem_sum (b : recursiveHashBuilder) (fs : FileSystem) (ws : List Worker)
    (w : Worker) (hw : w ∈ ws) (x : Report) (hx : x ∈ w.load b fs) :
    x ∈ (ws.map (Worker.load b fs)).sum := by
  induction ws with
  | nil => simp at hw
  | cons y rest ih =>
    simp only [List.map_cons, List.sum_cons, Multiset.mem_add]
    simp only [List.mem_cons] at hw
    rcases hw with rfl | hw
    · exact Or.inl hx
    · exact Or.inr (ih hw)

/-- Every result in flight or delivered is the report of a path the traversal
sent. -/
theorem report_of_sent (b : recursiveHashBuilder) (fs : FileSystem) (s : State)
    (h : Inv b fs s) (r : HashResult)
    (hr : r ∈ s.received ∨ r ∈ s.OutputCh.buf ∨ Worker.sending r ∈ s.workers) :
    r.Path ∈ (traversal b fs).state ∧
      (r.Hash, r.Error) = BuildFileHash fs.Open b.hash r.Path := by
  have hmem : r.report ∈ (↑((traversal b fs).state.map (jobReport b fs)) : Multiset Report) := by
    rw [← h.conserve]
    simp only [Multiset.mem_add, Multiset.mem_coe, List.mem_map]
    rcases hr with hr | hr | hr
    · exact Or.inr ⟨r, hr, rfl⟩
    · exact Or.inl (Or.inr ⟨r, hr, rfl⟩)
    · refine Or.inl (Or.inl (Or.inr ?_))
      exact load_mem_sum b fs _ _ hr _ (by simp [Worker.load])
  simp only [Multiset.mem_coe, List.mem_map] at hmem
  obtain ⟨p, hp, he⟩ := hmem
  simp only [jobReport, HashResult.report, Prod.mk.injEq] at he
  obtain ⟨h1, h2⟩ := he
  subst h1
  refine ⟨hp, ?_⟩
  rw [← h2]

theorem BuildFileHash_cases (osOpen : String → Except GoError OpenFile) (hash : CryptoHash)
    (filename : String) :
    ((BuildFileHash osOpen hash filename).2 = none ∧
        (BuildFileHash osOpen hash filename).1 ≠ "" ∧
        ∃ f, osOpen filename = .ok f ∧ f.readErr = none ∧
          (BuildFileHash osOpen hash filename).1 = hexEncode (hash.Sum f.contents)) ∨
    ((BuildFileHash osOpen hash filename).1 = "" ∧
        (BuildFileHash osOpen hash filename).2 ≠ none) := by
  cases hopen : osOpen filename with
  | error e =>
    right
    simp [BuildFileHash, hopen]
  | ok f =>
    cases hread : f.readErr with
    | some e =>
      right
      have : ioCopy [] f = ((ioCopy [] f).1, some e) := by simp [ioCopy, hread]
      simp only [BuildFileHash, hopen]
      rw [this]
      simp
    | none =>
      left
      rw [BuildFileHash_ok osOpen hash filename f hopen hread]
      exact ⟨rfl, hexEncode_ne_empty _ _, f, rfl, hread, rfl⟩


/-! ## Closing the job queue -/

theorem stepMain_closed (b : recursiveHashBuilder) (fs : FileSystem) (s s1 : State)
    (h : Inv b fs s) (hs : Walk.stepMain b fs s = some s1) :
    (s.pc = .closing → s.buildch.closed = false ∧ s1.buildch.closed = true) ∧
    (s.pc ≠ .closing → s1.buildch.closed = s.buildch.closed) ∧
    (s.buildch.closed = true → s1.buildch.buf = s.buildch.buf) := by
  have h5 := h.closed_iff
  unfold Walk.stepMain at hs
  split at hs
  · rename_i hpc
    split at hs <;> cases hs <;> simp [hpc]
  · rename_i hpc
    have hclosed : s.buildch.closed = false := by
      cases hc : s.buildch.closed
      · rfl
      · rw [hc] at h5; simp [hpc] at h5
    split at hs
    · simp only [hclosed, Bool.false_eq_true, if_false] at hs
      split at hs
      · cases hs; simp [hpc, hclosed]
      · cases hs
    · split at hs <;> cases hs <;> simp [hpc]
  · rename_i hpc
    have hclosed : s.buildch.closed = false := by
      cases hc : s.buildch.closed
      · rfl
      · rw [hc] at h5; simp [hpc] at h5
    simp only [hclosed, Bool.false_eq_true, if_false] at hs
    cases hs
    simp [hpc, hclosed]
  · rename_i hpc
    split at hs
    · split at hs <;> cases hs <;> simp [hpc]
    · cases hs
  · cases hs
  · cases hs

theorem buildhash_closed (b : recursiveHashBuilder) (fs : FileSystem) (s s1 : State)
    (i start stop : Nat) (hs : buildhash b fs i start stop s = some s1) :
    s1.buildch.closed = s.buildch.closed ∧ s1.buildch.buf.length ≤ s.buildch.buf.length := by
  unfold Recsum.buildhash at hs
  split at hs
  · cases hs
  · split at hs
    · rename_i hbuf
      cases hs
      simp [hbuf]
    · split at hs <;> cases hs
      simp
  · cases hs; simp
  · split at hs
    · cases hs; simp
    · split at hs
      · cases hs; simp
      · split at hs <;> cases hs
        simp
  · cases hs

theorem readOutput_buildch (s s1 : State) (hs : readOutput s = some s1) :
    s1.buildch = s.buildch := by
  unfold Recsum.readOutput at hs
  split at hs <;> cases hs
  rfl

/-- What one step does to the closed flag and the buffer of the job queue. -/
theorem step_closed (b : recursiveHashBuilder) (fs : FileSystem) (s s1 : State)
    (act : Action) (h : Inv b fs s) (hs : Walk.step b fs s act = some s1) :
    (act = .main ∧ s.pc = .closing → s.buildch.closed = false ∧ s1.buildch.closed = true) ∧
    (¬ (act = .main ∧ s.pc = .closing) → s1.buildch.closed = s.buildch.closed) ∧
    (s.buildch.closed = true → s1.buildch.buf.length ≤ s.buildch.buf.length) := by
  unfold Walk.step at hs
  split at hs
  · cases hs
  · cases act with
    | main =>
      have := stepMain_closed b fs s s1 h hs
      refine ⟨fun hh => this.1 hh.2, fun hh => this.2.1 (fun hp => hh ⟨rfl, hp⟩), ?_⟩
      intro hc
      rw [this.2.2 hc]
    | worker i start stop =>
      have := buildhash_closed b fs s s1 i start stop hs
      exact ⟨fun hh => (by cases hh.1), fun _ => this.1, fun _ => this.2⟩
    | reader =>
      have := readOutput_buildch s s1 hs
      rw [this]
      exact ⟨fun hh => (by cases hh.1), fun _ => rfl, fun _ => le_refl _⟩

theorem closeCalls_run (b : recursiveHashBuilder) (fs : FileSystem) :
    ∀ (sched : List Action) (s s1 : State), Inv b fs s → Walk.run b fs s sched = some s1 →
      Walk.closeCalls b fs s sched + (if s.buildch.closed = true then 1 else 0)
        = (if s1.buildch.closed = true then 1 else 0)
  | [], s, s1, _, hr => by
    simp only [Walk.run, Option.some.injEq] at hr
    subst hr
    simp [Walk.closeCalls]
  | act :: rest, s, s1, h, hr => by
    simp only [Walk.run] at hr
    split at hr
    · cases hr
    · rename_i s2 hstep
      have ih := closeCalls_run b fs rest s2 s1 (Inv.step b fs s s2 act h hstep) hr
      have hc := step_closed b fs s s2 act h hstep
      simp only [Walk.closeCalls, hstep]
      by_cases hq : act = .main ∧ s.pc = .closing
      · have := hc.1 hq
        rw [if_pos hq]
        rw [this.2] at ih
        rw [this.1]
        simp only [if_true, Bool.false_eq_true, if_false] at ih ⊢
        omega
      · have := hc.2.1 hq
        rw [if_neg hq]
        rw [this] at ih
        omega


theorem get?_set_self (ws : List Worker) (i : Nat) (w w2 : Worker)
    (h : ws.get? i = some w) : (ws.set i w2).get? i = some w2 := by
  have hi : i < ws.length := by
    by_contra hc
    rw [List.get?_eq_none.2 (by omega)] at h
    cases h
  simp [List.getElem?_set_self hi]

/-! ## Properties of `Walk` -/

/-- C1: for a builder made by `New` on a fresh output channel, with any filter
that returns normally on every entry the traversal visits, once `Walk` has
returned and the output channel is drained the multiset of `Path` fields
received equals the multiset of visited paths the filter accepted, so there
are exactly as many results as accepted entries. -/
theorem Walk_one_result_per_accepted_path (path : String) (hash : CryptoHash) (outcap : Nat)
    (workers : Int) (b0 : recursiveHashBuilder) (filter : Filter) (fs : FileSystem)
    (sched : List Action) (s : State)
    (hnew : (New path hash (Chan.make outcap) workers).builder = some b0)
    (hfilter : ∀ v ∈ walkVisits fs path, filter v.path v.info v.err ≠ none)
    (hrun : Walk.run (b0.SetFilter filter) fs (Walk.init (b0.SetFilter filter)) sched = some s)
    (hfin : s.finished) :
    (↑(s.received.map HashResult.Path) : Multiset String)
        = ↑(acceptedPaths filter (walkVisits fs path)) ∧
      s.received.length = (acceptedPaths filter (walkVisits fs path)).length := by
  obtain ⟨hb, hp, hf, _, _⟩ := ready_of_New path hash outcap workers b0 filter hnew
  have hinv := Inv.reachable _ fs hb sched s hrun
  have h1 := finished_paths _ fs hb s hinv hfin
  have h2 := traversal_of_total (b0.SetFilter filter) fs (by rw [hp, hf]; exact hfilter)
  rw [h2, hp, hf] at h1
  simp only [Outcome.state] at h1
  refine ⟨h1, ?_⟩
  have := congrArg Multiset.card h1
  simpa using this

/-- C6: for a builder made by `New` and a filter that returns normally, in
every state of every run: the program has not panicked; if `Walk` has returned
it returned nil; the run is no longer than the measure of the initial state
allows, and unless `Walk` has returned and the output is drained some goroutine
can take a step, so every run ends with `Walk` returned; the run can be
completed to a state in which `Walk` has returned nil and the reader holds
exactly one result for each enqueued path, carrying whatever `BuildFileHash`
gave for it, error included; a worker holding a path sends a result for it
whether hashing failed or not; and a worker that has sent a result is back at
the head of its loop.  Nothing here depends on what opening or reading any
file yields. -/
theorem Walk_returns_nil_whatever_hashing_gives (path : String) (hash : CryptoHash)
    (outcap : Nat) (workers : Int) (b0 : recursiveHashBuilder) (filter : Filter)
    (fs : FileSystem) (sched : List Action) (s : State)
    (hnew : (New path hash (Chan.make outcap) workers).builder = some b0)
    (hfilter : ∀ v ∈ walkVisits fs path, filter v.path v.info v.err ≠ none)
    (hrun : Walk.run (b0.SetFilter filter) fs (Walk.init (b0.SetFilter filter)) sched
      = some s) :
    s.pc ≠ .crashed ∧
    (s.pc = .returned → s.Walk_result = some none) ∧
    sched.length + s.measure (b0.SetFilter filter) fs
      ≤ (Walk.init (b0.SetFilter filter)).measure (b0.SetFilter filter) fs ∧
    (¬ s.finished → ∃ act s1, Walk.step (b0.SetFilter filter) fs s act = some s1) ∧
    (∃ sched2 s2, Walk.run (b0.SetFilter filter) fs s sched2 = some s2 ∧ s2.finished ∧
      s2.Walk_result = some none ∧
      (↑(s2.received.map HashResult.report) : Multiset Report)
        = ↑((acceptedPaths filter (walkVisits fs path)).map
            (fun p => (p, BuildFileHash fs.Open hash p)))) ∧
    (∀ i p start stop, s.workers.get? i = some (.hashing p) →
      Walk.step (b0.SetFilter filter) fs s (.worker i start stop)
        = some { s with
            workers := s.workers.set i (.sending ⟨p, (BuildFileHash fs.Open hash p).1, start,
              stop, (BuildFileHash fs.Open hash p).2⟩) }) ∧
    (∀ i r start stop s1, s.workers.get? i = some (.sending r) →
      Walk.step (b0.SetFilter filter) fs s (.worker i start stop) = some s1 →
      s1.workers.get? i = some .ranging ∧ s1.pc = s.pc) := by
  obtain ⟨hb, hp, hf, hh, _⟩ := ready_of_New path hash outcap workers b0 filter hnew
  have hinv := Inv.reachable _ fs hb sched s hrun
  have htr := traversal_of_total (b0.SetFilter filter) fs (by rw [hp, hf]; exact hfilter)
  rw [hp, hf] at htr
  have hnc : s.pc ≠ .crashed :=
    run_not_crashed _ fs _ _ htr sched _ s (Inv.init _ fs hb) hrun
  have hres : ∀ t : State, Inv (b0.SetFilter filter) fs t → t.pc = .returned →
      t.Walk_result = some none := by
    intro t ht hpc
    simp [State.Walk_result, hpc, ht.retval]
  refine ⟨hnc, hres s hinv, measure_run _ fs sched _ s (Inv.init _ fs hb) hrun,
    progress _ fs hb s hinv hnc, ?_, ?_, ?_⟩
  · obtain ⟨sched2, s2, hr2, hfin⟩ :=
      exists_finish _ fs hb _ _ htr (s.measure (b0.SetFilter filter) fs) s (le_refl _) hinv hnc
    have hinv2 := Inv.run _ fs sched2 s s2 hinv hr2
    refine ⟨sched2, s2, hr2, hfin, hres s2 hinv2 hfin.1, ?_⟩
    have := finished_reports _ fs hb s2 hinv2 hfin
    rw [htr] at this
    simp only [Outcome.state] at this
    rw [this]
    have e : jobReport (b0.SetFilter filter) fs = fun p => (p, BuildFileHash fs.Open hash p) := by
      funext p
      simp [jobReport, hh]
    rw [e]
  · intro i p start stop hw
    rw [step_worker _ fs s i start stop hnc]
    simp only [Recsum.buildhash, hw, hh]
  · intro i r start stop s1 hw hs
    rw [step_worker _ fs s i start stop hnc] at hs
    simp only [Recsum.buildhash, hw, hinv.out_open, Bool.false_eq_true, if_false] at hs
    split at hs
    · cases hs
      exact ⟨get?_set_self _ _ _ _ hw, rfl⟩
    · split at hs
      · cases hs
        exact ⟨get?_set_self _ _ _ _ hw, rfl⟩
      · cases hs

/-- C7: `BuildFileHash` returns either a non-empty digest string with a nil
error or the empty string with a non-nil error, and which of the two is fixed
by the file: when the file cannot be opened, or a read fails after any number
of bytes, the result is the empty string with that error; only when the file is
read to its end is the result the hex digest of all of its contents, with a nil
error.  Hence in every state of a run of `Walk`, every result a worker is
sending, the output channel holds or the reader has received has an empty
`Hash` when its `Error` is non-nil, its `Path` is one of the paths the traversal
put on the job queue, its `Hash` and `Error` are what `BuildFileHash` gives for
that path, a nil `Error` comes with the digest of a file read to its end, and a
non-nil `Error` is the error of the failed open or read; a worker that takes a
path from the job queue hashes that path. -/
theorem BuildFileHash_all_or_nothing (osOpen : String → Except GoError OpenFile)
    (filename : String) (path : String) (hash : CryptoHash)
    (outcap : Nat) (workers : Int) (b0 : recursiveHashBuilder) (filter : Filter)
    (fs : FileSystem) (sched : List Action) (s : State)
    (hnew : (New path hash (Chan.make outcap) workers).builder = some b0)
    (hrun : Walk.run (b0.SetFilter filter) fs (Walk.init (b0.SetFilter filter)) sched
      = some s) :
    (((BuildFileHash osOpen hash filename).2 = none ∧
          (BuildFileHash osOpen hash filename).1 ≠ "") ∨
      ((BuildFileHash osOpen hash filename).1 = "" ∧
          (BuildFileHash osOpen hash filename).2 ≠ none)) ∧
    (∀ e, osOpen filename = .error e →
      BuildFileHash osOpen hash filename = ("", some e)) ∧
    (∀ f e, osOpen filename = .ok f → f.readErr = some e →
      BuildFileHash osOpen hash filename = ("", some e)) ∧
    (∀ f, osOpen filename = .ok f → f.readErr = none →
      BuildFileHash osOpen hash filename = (hexEncode (hash.Sum f.contents), none) ∧
        hexEncode (hash.Sum f.contents) ≠ "") ∧
    (∀ r, (r ∈ s.received ∨ r ∈ s.OutputCh.buf ∨ Worker.sending r ∈ s.workers) →
      (r.Error ≠ none → r.Hash = "") ∧
      r.Path ∈ (traversal (b0.SetFilter filter) fs).state ∧
      (r.Hash, r.Error) = BuildFileHash fs.Open hash r.Path ∧
      (r.Error = none → r.Hash ≠ "" ∧
        ∃ f, fs.Open r.Path = .ok f ∧ f.readErr = none ∧
          r.Hash = hexEncode (hash.Sum f.contents)) ∧
      (∀ e, r.Error = some e →
        fs.Open r.Path = .error e ∨ ∃ f, fs.Open r.Path = .ok f ∧ f.readErr = some e)) ∧
    (∀ i p rest start stop, s.workers.get? i = some .ranging → s.buildch.buf = p :: rest →
      ∃ s1, buildhash (b0.SetFilter filter) fs i start stop s = some s1 ∧
        s1.workers.get? i = some (.hashing p)) ∧
    (∀ i p start stop, s.workers.get? i = some (.hashing p) →
      ∃ s1 r, buildhash (b0.SetFilter filter) fs i start stop s = some s1 ∧
        s1.workers.get? i = some (.sending r) ∧ r.Path = p ∧
        (r.Hash, r.Error) = BuildFileHash fs.Open hash p) := by
  obtain ⟨hb, hp, hf, hh, _⟩ := ready_of_New path hash outcap workers b0 filter hnew
  have hinv := Inv.reachable _ fs hb sched s hrun
  have hdich : ∀ (o : String → Except GoError OpenFile) (f : String),
      (((BuildFileHash o hash f).2 = none ∧ (BuildFileHash o hash f).1 ≠ "") ∨
        ((BuildFileHash o hash f).1 = "" ∧ (BuildFileHash o hash f).2 ≠ none)) := by
    intro o f
    rcases BuildFileHash_cases o hash f with h | h
    · exact Or.inl ⟨h.1, h.2.1⟩
    · exact Or.inr h
  refine ⟨hdich osOpen filename,
    fun e he => BuildFileHash_open_error osOpen hash filename e he,
    fun f e ho hr => BuildFileHash_read_error osOpen hash filename f e ho hr,
    fun f ho hr => ⟨BuildFileHash_ok osOpen hash filename f ho hr, hexEncode_ne_empty _ _⟩,
    ?_, ?_, ?_⟩
  · intro r hr
    obtain ⟨h1, h2⟩ := report_of_sent _ fs s hinv r hr
    rw [hh] at h2
    have hH : r.Hash = (BuildFileHash fs.Open hash r.Path).1 := congrArg Prod.fst h2
    have hE : r.Error = (BuildFileHash fs.Open hash r.Path).2 := congrArg Prod.snd h2
    refine ⟨?_, h1, h2, ?_, ?_⟩
    · intro he
      rcases hdich fs.Open r.Path with h | h
      · rw [hE] at he
        exact absurd h.1 he
      · rw [hH]
        exact h.1
    · intro he
      cases hopen : fs.Open r.Path with
      | error e =>
        rw [BuildFileHash_open_error fs.Open hash r.Path e hopen] at hE
        rw [hE] at he
        cases he
      | ok f =>
        cases hread : f.readErr with
        | some e =>
          rw [BuildFileHash_read_error fs.Open hash r.Path f e hopen hread] at hE
          rw [hE] at he
          cases he
        | none =>
          rw [BuildFileHash_ok fs.Open hash r.Path f hopen hread] at hH
          simp only at hH
          exact ⟨by rw [hH]; exact hexEncode_ne_empty _ _, f, rfl, hread, hH⟩
    · intro e he
      cases hopen : fs.Open r.Path with
      | error e2 =>
        rw [BuildFileHash_open_error fs.Open hash r.Path e2 hopen] at hE
        rw [hE] at he
        simp only [Option.some.injEq] at he
        subst he
        exact Or.inl rfl
      | ok f =>
        cases hread : f.readErr with
        | some e2 =>
          rw [BuildFileHash_read_error fs.Open hash r.Path f e2 hopen hread] at hE
          rw [hE] at he
          simp only [Option.some.injEq] at he
          subst he
          exact Or.inr ⟨f, rfl, hread⟩
        | none =>
          rw [BuildFileHash_ok fs.Open hash r.Path f hopen hread] at hE
          rw [hE] at he
          cases he
  · intro i p rest start stop hw hbuf
    simp only [Recsum.buildhash, hw, hbuf]
    exact ⟨_, rfl, get?_set_self _ _ _ _ hw⟩
  · intro i p start stop hw
    simp only [Recsum.buildhash, hw, hh]
    exact ⟨_, _, rfl, get?_set_self _ _ _ _ hw, rfl, rfl⟩

/-- C9: two builders made by `New` for the same root, algorithm and file
system with the same filter set, whatever their worker counts and output
channel capacities, under any two schedules that let `Walk` return and the
output drain, deliver the same multiset, hence the same set, of triples of
path, digest and presence of an error. -/
theorem Walk_results_independent_of_workers (path : String) (hash : CryptoHash)
    (filter : Filter) (fs : FileSystem) (cap1 cap2 : Nat) (w1 w2 : Int)
    (b1 b2 : recursiveHashBuilder) (sched1 sched2 : List Action) (s1 s2 : State)
    (hnew1 : (New path hash (Chan.make cap1) w1).builder = some b1)
    (hnew2 : (New path hash (Chan.make cap2) w2).builder = some b2)
    (hrun1 : Walk.run (b1.SetFilter filter) fs (Walk.init (b1.SetFilter filter)) sched1
      = some s1)
    (hfin1 : s1.finished)
    (hrun2 : Walk.run (b2.SetFilter filter) fs (Walk.init (b2.SetFilter filter)) sched2
      = some s2)
    (hfin2 : s2.finished) :
    1 ≤ w1 ∧ 1 ≤ w2 ∧
    (↑(s1.received.map HashResult.triple) : Multiset (String × String × Bool))
        = ↑(s2.received.map HashResult.triple) ∧
      ∀ t, t ∈ s1.received.map HashResult.triple ↔ t ∈ s2.received.map HashResult.triple := by
  obtain ⟨hb1, hp1, hf1, hh1, hw1⟩ := ready_of_New path hash cap1 w1 b1 filter hnew1
  obtain ⟨hb2, hp2, hf2, hh2, hw2⟩ := ready_of_New path hash cap2 w2 b2 filter hnew2
  have hi1 := Inv.reachable _ fs hb1 sched1 s1 hrun1
  have hi2 := Inv.reachable _ fs hb2 sched2 s2 hrun2
  have hr1 := finished_reports _ fs hb1 s1 hi1 hfin1
  have hr2 := finished_reports _ fs hb2 s2 hi2 hfin2
  have ewf : walkfunc (b1.SetFilter filter) = walkfunc (b2.SetFilter filter) := by
    funext p i e sent
    simp only [walkfunc, hf1, hf2]
  have etr : traversal (b1.SetFilter filter) fs = traversal (b2.SetFilter filter) fs := by
    simp only [traversal, hp1, hp2, ewf]
  have ejob : jobReport (b1.SetFilter filter) fs = jobReport (b2.SetFilter filter) fs := by
    funext p
    simp only [jobReport, hh1, hh2]
  rw [etr, ejob, ← hr2] at hr1
  have key : (↑(s1.received.map HashResult.triple) : Multiset (String × String × Bool))
      = ↑(s2.received.map HashResult.triple) := by
    have h := congrArg (Multiset.map (fun x : Report => (x.1, x.2.1, x.2.2.isSome))) hr1
    simp only [Multiset.map_coe, List.map_map] at h
    exact h
  have hw1' := hb1.workers
  have hw2' := hb2.workers
  rw [hw1] at hw1'
  rw [hw2] at hw2'
  refine ⟨hw1', hw2', key, ?_⟩
  intro t
  rw [← Multiset.mem_coe, ← Multiset.mem_coe, key]

/-- C10: in every run of `Walk` on a builder made by `New`, whether the
traversal returns or the filter panics in it: `close(b.buildch)` is executed at
most once, and exactly once by the time `Walk` has returned or the panic has
left it; the job queue is closed only once `filepath.Walk` has ended and every
path it produced has been sent; the only step that changes the closed flag is
the one the goroutine that called `Walk` takes from `closing` (no worker and no
reader does); once the queue is closed no step makes its buffer longer; when
`Walk` has returned or the panic has left it, all of the `workers` workers it
started have exited, each having seen the queue closed and empty; `Walk`
returns only when the traversal returned; and until then some goroutine can
always take a step, in a run whose length the initial measure bounds. -/
theorem buildch_closed_once_by_Walk (path : String) (hash : CryptoHash)
    (outcap : Nat) (workers : Int) (b0 : recursiveHashBuilder) (filter : Filter)
    (fs : FileSystem) (sched : List Action) (s : State)
    (hnew : (New path hash (Chan.make outcap) workers).builder = some b0)
    (hrun : Walk.run (b0.SetFilter filter) fs (Walk.init (b0.SetFilter filter)) sched
      = some s) :
    Walk.closeCalls (b0.SetFilter filter) fs (Walk.init (b0.SetFilter filter)) sched ≤ 1 ∧
    (s.buildch.closed = true ↔
      Walk.closeCalls (b0.SetFilter filter) fs (Walk.init (b0.SetFilter filter)) sched = 1) ∧
    (s.buildch.closed = true →
      (s.pc = .waiting ∨ s.pc = .returned ∨ s.pc = .crashed) ∧ s.pending = [] ∧
        ((s.panicking = false ∧ ∃ tr, traversal (b0.SetFilter filter) fs = .done none tr) ∨
          (s.panicking = true ∧ ∃ tr, traversal (b0.SetFilter filter) fs = .panic tr))) ∧
    (∀ act s1, Walk.step (b0.SetFilter filter) fs s act = some s1 →
      s1.buildch.closed ≠ s.buildch.closed →
      act = .main ∧ s.pc = .closing ∧ s.pending = [] ∧ s1.buildch.closed = true) ∧
    (∀ act s1, Walk.step (b0.SetFilter filter) fs s act = some s1 →
      s.buildch.closed = true →
      s1.buildch.closed = true ∧ s1.buildch.buf.length ≤ s.buildch.buf.length) ∧
    (s.pc = .returned ∨ s.pc = .crashed →
      Walk.closeCalls (b0.SetFilter filter) fs (Walk.init (b0.SetFilter filter)) sched = 1 ∧
      (s.workers.length : Int) = workers ∧ (∀ w ∈ s.workers, w = Worker.exited) ∧
      s.buildwg = 0 ∧ s.buildch.closed = true ∧ s.buildch.buf = []) ∧
    (s.pc = .returned →
      s.panicking = false ∧ ∃ tr, traversal (b0.SetFilter filter) fs = .done none tr) ∧
    (s.pc ≠ .crashed → ¬ s.finished →
      ∃ act s1, Walk.step (b0.SetFilter filter) fs s act = some s1) ∧
    sched.length + s.measure (b0.SetFilter filter) fs
      ≤ (Walk.init (b0.SetFilter filter)).measure (b0.SetFilter filter) fs := by
  obtain ⟨hb, hp, hf, hh, hwk⟩ := ready_of_New path hash outcap workers b0 filter hnew
  have hinv := Inv.reachable _ fs hb sched s hrun
  have hcc := closeCalls_run _ fs sched _ s (Inv.init _ fs hb) hrun
  have hinit : (Walk.init (b0.SetFilter filter)).buildch.closed = false := by
    simp [Walk.init, hb.buildch, Chan.make]
  rw [hinit] at hcc
  simp only [Bool.false_eq_true, if_false, add_zero] at hcc
  have hiff : s.buildch.closed = true ↔
      Walk.closeCalls (b0.SetFilter filter) fs (Walk.init (b0.SetFilter filter)) sched = 1 := by
    rw [hcc]
    by_cases hc : s.buildch.closed = true <;> simp [hc]
  have hclosed_pc : s.buildch.closed = true →
      (s.pc = .waiting ∨ s.pc = .returned ∨ s.pc = .crashed) ∧ s.pending = [] ∧
        ((s.panicking = false ∧ ∃ tr, traversal (b0.SetFilter filter) fs = .done none tr) ∨
          (s.panicking = true ∧ ∃ tr, traversal (b0.SetFilter filter) fs = .panic tr)) := by
    intro hc
    have hpc := hinv.closed_iff.1 hc
    refine ⟨hpc, hinv.pending_nil ?_, hinv.walked (Or.inr hpc)⟩
    rcases hpc with h | h | h <;> simp [h]
  refine ⟨?_, hiff, hclosed_pc, ?_, ?_, ?_, ?_, ?_, ?_⟩
  · rw [hcc]
    split <;> omega
  · intro act s1 hs hne
    have hc := step_closed _ fs s s1 act hinv hs
    by_cases hq : act = .main ∧ s.pc = .closing
    · refine ⟨hq.1, hq.2, hinv.pending_nil ?_, (hc.1 hq).2⟩
      simp [hq.2]
    · exact absurd (hc.2.1 hq) hne
  · intro act s1 hs hc
    have hsc := step_closed _ fs s s1 act hinv hs
    refine ⟨?_, hsc.2.2 hc⟩
    by_cases hq : act = .main ∧ s.pc = .closing
    · exact (hsc.1 hq).2
    · rw [hsc.2.1 hq]
      exact hc
  · intro hpc
    have hcl : s.buildch.closed = true := hinv.closed_iff.2 (Or.inr hpc)
    have hr := returned_reports _ fs hb s hinv hpc
    have hns : s.pc ≠ .spawning := by
      rcases hpc with h | h <;> simp [h]
    have hlen := hinv.workers_eq hns
    rw [hwk] at hlen
    exact ⟨hiff.1 hcl, hlen, hr.1, hinv.returned hpc, hcl, hr.2.1⟩
  · intro hpc
    have hcalm := hinv.calm (Or.inr (Or.inr hpc))
    rcases hinv.walked (Or.inr (Or.inr (Or.inl hpc))) with h | h
    · exact h
    · rw [hcalm] at h
      cases h.1
  · intro hnc hnf
    exact progress _ fs hb s hinv hnc hnf
  · exact measure_run _ fs sched _ s (Inv.init _ fs hb) hrun

/-! ## Runs on the small file system -/

set_option maxRecDepth 1000000 in
theorem demo_run :
    Walk.run (demoBuilder.SetFilter DefaultFilter) demoFS
      (Walk.init (demoBuilder.SetFilter DefaultFilter)) demoSched = some demoFinal := by
  decide

set_option maxRecDepth 1000000 in
theorem solo_run :
    Walk.run (soloBuilder.SetFilter DefaultFilter) demoFS
      (Walk.init (soloBuilder.SetFilter DefaultFilter)) soloSched = some soloFinal := by
  decide

set_option maxRecDepth 1000000 in
theorem locked_run :
    Walk.run (demoBuilder.SetFilter DefaultFilter) lockedFS
      (Walk.init (demoBuilder.SetFilter DefaultFilter)) demoSched = some lockedFinal := by
  decide

set_option maxRecDepth 1000000 in
theorem torn_run :
    Walk.run (demoBuilder.SetFilter DefaultFilter) tornFS
      (Walk.init (demoBuilder.SetFilter DefaultFilter)) demoSched = some tornFinal := by
  decide

set_option maxRecDepth 1000000 in
theorem broken_run :
    Walk.run (brokenBuilder.SetFilter DefaultFilter) brokenFS
      (Walk.init (brokenBuilder.SetFilter DefaultFilter)) brokenSched = some brokenFinal := by
  decide

theorem demo_filter_total :
    ∀ v ∈ walkVisits demoFS "root", DefaultFilter v.path v.info v.err ≠ none := by
  decide

/-- Two workers on `root`: the four accepted paths each give one result. -/
theorem Walk_one_result_per_accepted_path_witness :
    demoFinal.finished ∧
    acceptedPaths DefaultFilter (walkVisits demoFS "root")
      = ["root/a.txt", "root/b.txt", "root/c.txt", "root/d/link"] ∧
    (↑(demoFinal.received.map HashResult.Path) : Multiset String)
        = ↑(acceptedPaths DefaultFilter (walkVisits demoFS "root")) ∧
      demoFinal.received.length = (acceptedPaths DefaultFilter (walkVisits demoFS "root")).length :=
  ⟨⟨rfl, rfl⟩, by decide,
    Walk_one_result_per_accepted_path "root" SHA256 1 2 demoBuilder DefaultFilter demoFS
      demoSched demoFinal rfl demo_filter_total demo_run ⟨rfl, rfl⟩⟩

/-- No file of `root` can be opened, and `Walk` returns nil with four results,
each carrying an error. -/
theorem Walk_returns_nil_whatever_hashing_gives_witness :
    lockedFinal.pc = .returned ∧ lockedFinal.Walk_result = some none ∧
      lockedFinal.received.length = 4 ∧ ∀ r ∈ lockedFinal.received, r.Error ≠ none :=
  ⟨rfl,
    (Walk_returns_nil_whatever_hashing_gives "root" SHA256 1 2 demoBuilder DefaultFilter
      lockedFS demoSched lockedFinal rfl demo_filter_total locked_run).2.1 rfl,
    rfl, by decide⟩

/-- Reading `root/a.txt` fails after three bytes: no digest of those bytes is
returned, and the result the run delivers for it has the read error and an
empty `Hash`. -/
theorem BuildFileHash_all_or_nothing_witness :
    tornFS.Open "root/a.txt"
      = .ok ⟨[bytesOf "hel"], some "read root/a.txt: input/output error"⟩ ∧
    BuildFileHash tornFS.Open SHA256 "root/a.txt"
      = ("", some "read root/a.txt: input/output error") ∧
    (⟨"root/a.txt", "", 1, 2, some "read root/a.txt: input/output error"⟩ : HashResult)
      ∈ tornFinal.received ∧
    (∀ r ∈ tornFinal.received, r.Error ≠ none → r.Hash = "") :=
  ⟨rfl,
    (BuildFileHash_all_or_nothing tornFS.Open "root/a.txt" "root" SHA256 1 2 demoBuilder
      DefaultFilter tornFS demoSched tornFinal rfl torn_run).2.2.1 _ _ rfl rfl,
    by decide,
    fun r hr =>
      ((BuildFileHash_all_or_nothing tornFS.Open "root/a.txt" "root" SHA256 1 2 demoBuilder
        DefaultFilter tornFS demoSched tornFinal rfl torn_run).2.2.2.2.1 r (Or.inl hr)).1⟩

/-- One worker and two workers deliver the same triples. -/
theorem Walk_results_independent_of_workers_witness :
    (↑(demoFinal.received.map HashResult.triple) : Multiset (String × String × Bool))
      = ↑(soloFinal.received.map HashResult.triple) :=
  (Walk_results_independent_of_workers "root" SHA256 DefaultFilter demoFS 1 3 2 1 demoBuilder
    soloBuilder demoSched soloSched demoFinal soloFinal rfl rfl demo_run ⟨rfl, rfl⟩ solo_run
    ⟨rfl, rfl⟩).2.2.1

/-- On `brokenFS` the default filter panics in the traversal after one path
was sent: the job queue is still closed, once, the worker delivers the result
and exits, and the panic leaves `Walk`. -/
theorem buildch_closed_once_by_Walk_witness :
    (traversal (brokenBuilder.SetFilter DefaultFilter) brokenFS).state = ["dir/a.txt"] ∧
    brokenFinal.pc = .crashed ∧
    Walk.closeCalls (brokenBuilder.SetFilter DefaultFilter) brokenFS
        (Walk.init (brokenBuilder.SetFilter DefaultFilter)) brokenSched = 1 ∧
    (∀ w ∈ brokenFinal.workers, w = Worker.exited) ∧
    brokenFinal.buildch.closed = true ∧
    ∃ tr, traversal (brokenBuilder.SetFilter DefaultFilter) brokenFS = .panic tr :=
  ⟨by decide, rfl,
    ((buildch_closed_once_by_Walk "dir" SHA256 1 1 brokenBuilder DefaultFilter brokenFS
      brokenSched brokenFinal rfl broken_run).2.2.2.2.2.1 (Or.inr rfl)).1,
    ((buildch_closed_once_by_Walk "dir" SHA256 1 1 brokenBuilder DefaultFilter brokenFS
      brokenSched brokenFinal rfl broken_run).2.2.2.2.2.1 (Or.inr rfl)).2.2.1,
    rfl,
    (((buildch_closed_once_by_Walk "dir" SHA256 1 1 brokenBuilder DefaultFilter brokenFS
      brokenSched brokenFinal rfl broken_run).2.2.1 rfl).2.2.resolve_left
        (fun h => Bool.noConfusion h.1)).2⟩

/-- C5: `Lstat` fails on the root `missing`, and `Walk` on the builder `New`
returns for it, with a filter that tolerates nil metadata, returns nil, not the
error; with the default filter the filter panics, the deferred calls of `Walk`
run, and the panic leaves `Walk`, which returns nothing. -/
theorem Walk_missing_root_returns_nil :
    (New "missing" SHA256 (Chan.make 1) 1).builder = some missingBuilder ∧
    walkVisits demoFS "missing"
      = [⟨"missing", none, some "lstat: no such file or directory"⟩] ∧
    (Walk.run (missingBuilder.SetFilter rejectAll) demoFS
        (Walk.init (missingBuilder.SetFilter rejectAll)) missingSched).map State.Walk_result
      = some (some none) ∧
    (Walk.run missingBuilder demoFS (Walk.init missingBuilder) [.main, .main, .main]).map
        (fun s => (s.pc, s.panicking))
      = some (.closing, true) ∧
    (Walk.run missingBuilder demoFS (Walk.init missingBuilder) missingSched).map State.pc
      = some .crashed ∧
    (Walk.run missingBuilder demoFS (Walk.init missingBuilder) missingSched).map
        State.Walk_result
      = some none :=
  ⟨rfl, by decide, by decide, by decide, by decide, by decide⟩


end Recsum
